import Mathlib

/-!
# FCIDUMP writer (`fcidump.cc`): index mapping, record serialisation, orchestration

A shallow embedding of the index-translation and serialisation routines of the
PSI4 `fcidump` plug-in, together with theorems about them.

Modelling conventions.

* C `int` values are modelled by `Int` (loop counters and dimensions, which are
  never negative, by `Nat`).  Signed overflow is undefined behaviour in C, so
  the model describes the executions in which every intermediate value is
  representable; `INT_MAX` is provided to state representability.
* C `double` values are modelled by `ℚ`: the writers only copy values and
  compare `fabs x` with the cutoff, which is exact on finite doubles.  The one
  place where doubles are added (the frozen-core contribution) is therefore
  modelled in exact arithmetic.
* An output stream (`FILE*`) is the list of records written to it so far;
  `fprintf` appends one record.
* A C loop `for (int i = lo; i < hi; ++i) body` is `forLoop lo hi body`, which
  threads the mutable state through the iterations in increasing order.
* A run of the orchestrator `fcidump` is observed through its `Outcome`: how
  it ended (return, `PSIEXCEPTION`, or a write through the null handle of a
  file that `fopen` could not open) and the files it opened with their
  contents.  What the integral transformation, the storage library and BLAS
  produce is an input of the model.
-/

set_option linter.unusedVariables false

namespace Fcidump

/-! ## Basic vocabulary -/

/-- Largest value of a 32-bit C `int`. -/
def INT_MAX : Int := 2147483647

/-- The loop `for (int i = lo; i < hi; ++i) s = body i s;`. -/
def forLoop {σ : Type} (lo hi : Nat) (body : Nat → σ → σ) (s : σ) : σ :=
  (List.range' lo (hi - lo)).foldl (fun st i => body i st) s

/-- One formatted output line: the width of the `%E` field that holds the
value, the value itself, and the integer fields that follow it. -/
structure Record where
  width : Nat
  value : ℚ
  idx : List Int
deriving DecidableEq

/-- An output stream: the records written so far, oldest first. -/
abbrev FILE := List Record

/-- Appending one formatted line to a stream. -/
def fprintf (f : FILE) (r : Record) : FILE := f ++ [r]

/-! ## Orbital index mapper (`fcidump.cc`, lines 57-74) -/

/-- The type `orb_indx` of index-mapping function pointers. -/
abbrev orb_indx := Int → Int

/-- Zero-based molecular orbital index to one-based: `return i+1;`. -/
def mo_index (i : Int) : Int := i + 1

/-- Zero-based alpha spin-orbital index to `1,3,...`: `return 2*i+1;`. -/
def alpha_index (i : Int) : Int := 2 * i + 1

/-- Zero-based beta spin-orbital index to `2,4,...`: `return 2*(i+1);`. -/
def beta_index (i : Int) : Int := 2 * (i + 1)

/-- The alpha and beta indices of the first `n` orbital positions, in the
order alpha(0), beta(0), alpha(1), beta(1), ... -/
def spinIndices (n : Nat) : List Int :=
  (List.range n).flatMap (fun (i : Nat) => [alpha_index (i : Int), beta_index (i : Int)])

/-! ## Data model of the external collaborators -/

/-- A symmetry-blocked matrix (`SharedMatrix`) as the writers see it: the
number of irreps, the dimension of each square block and the element access
`get(h, m, n)`. -/
structure SharedMatrix where
  nirrep : Nat
  rowdim : Nat → Nat
  get : Nat → Nat → Nat → ℚ

/-- The `params` member of a `dpdbuf4`: per irrep the number of packed rows
and columns, and the tables decoding a packed row (column) index into its
orbital pair, `roworb[h][pq][0]`, `roworb[h][pq][1]`. -/
structure dpdparams4 where
  rowtot : Nat → Nat
  coltot : Nat → Nat
  roworb : Nat → Nat → Int × Int
  colorb : Nat → Nat → Int × Int

/-- A packed four-index buffer `dpdbuf4`.  `matrix h` is the block that
`buf4_mat_irrep_init` and `buf4_mat_irrep_rd` bring into memory for irrep `h`;
these calls and `buf4_mat_irrep_close` belong to libdpd and only manage that
storage. -/
structure dpdbuf4 where
  params : dpdparams4
  matrix : Nat → Nat → Nat → ℚ

/-- A `Dimension` object: the number of irreps `n()` and the per-irrep count
`operator[]`. -/
structure Dimension where
  n : Nat
  get : Nat → Nat

/-- The part of a `Wavefunction` that the property writer reads: the number of
irreps and, per irrep, the number of molecular orbitals, of frozen-core
orbitals and of frozen-virtual orbitals. -/
structure Wavefunction where
  nirrep : Nat
  nmopi : Nat → Nat
  frzcpi : Nat → Nat
  frzvpi : Nat → Nat

/-! ## The writers (`fcidump.cc`, lines 76-177) -/

/-- The one-electron writer `write_oei_to_disk`: walks the lower triangle of
every irrep block, keeping a running `offset`, and prints the elements whose
magnitude exceeds the cutoff. -/
def write_oei_to_disk (intdump : FILE) (moH : SharedMatrix) (ints_tolerance : ℚ)
    (indx : orb_indx) : FILE :=
  (forLoop 0 moH.nirrep (fun h (st : Nat × FILE) =>
      let offset := st.1
      let out :=
        forLoop 0 (moH.rowdim h) (fun m f =>
          forLoop 0 (m + 1) (fun n f =>
            if |moH.get h m n| > ints_tolerance then
              fprintf f ⟨29, moH.get h m n,
                [indx ((m + offset : Nat) : Int), indx ((n + offset : Nat) : Int), 0, 0]⟩
            else f) f) st.2
      (offset + moH.rowdim h, out))
    (0, intdump)).2

/-- The two-electron writer `write_tei_to_disk`: for every irrep, every packed
row and every packed column, decodes the two orbital pairs and prints the
element if its magnitude exceeds the cutoff. -/
def write_tei_to_disk (intdump : FILE) (nirrep : Nat) (K : dpdbuf4) (ints_tolerance : ℚ)
    (indx1 indx2 : orb_indx) : FILE :=
  forLoop 0 nirrep (fun h f =>
    forLoop 0 (K.params.rowtot h) (fun pq f =>
      let p := (K.params.roworb h pq).1
      let q := (K.params.roworb h pq).2
      forLoop 0 (K.params.coltot h) (fun rs f =>
        let r := (K.params.colorb h rs).1
        let s := (K.params.colorb h rs).2
        if |K.matrix h pq rs| > ints_tolerance then
          fprintf f ⟨28, K.matrix h pq rs, [indx1 p, indx1 q, indx2 r, indx2 s]⟩
        else f) f) f) intdump

/-- The eigenvalue writer `write_eigv_to_disk`: prints the energy of every
active orbital, numbering the records with the running counter `iorb`. -/
def write_eigv_to_disk (intdump : FILE) (frzcpi active_mopi : Dimension)
    (eigv : Nat → Nat → ℚ) (indx : orb_indx) : FILE :=
  (forLoop 0 active_mopi.n (fun h (st : Nat × FILE) =>
      forLoop (frzcpi.get h) (frzcpi.get h + active_mopi.get h) (fun i (st : Nat × FILE) =>
        let iorb := st.1
        (iorb + 1, fprintf st.2 ⟨28, eigv h i, [indx (iorb : Int), 0, 0, 0]⟩)) st)
    (0, intdump)).2

/-- The property writer `write_oei_prop_to_disk`.  The two `C_DGEMM` calls
(BLAS) that transform the property matrix to the MO basis are not part of this
source file: `TMP1 i j` is the element `TMP1[i][j]` they leave behind, and
`prop_rowdim h` is `prop_ints->rowdim(h)`.  The last argument is the value
stored in `*frz_contrib` on entry; the result is the output stream and the
value stored in `*frz_contrib` on exit.

`active_mopi` is `nmopi - frzcpi - frzvpi`; the truncated subtraction on `Nat`
gives the same loop ranges as the C `int` subtraction, because a bound below
the start of a loop leaves it empty either way. -/
def write_oei_prop_to_disk (intdump : FILE) (wfn : Wavefunction) (prop_rowdim : Nat → Nat)
    (TMP1 : Nat → Nat → ℚ) (ints_tolerance : ℚ) (indx : orb_indx) (frz_contrib : ℚ) :
    FILE × ℚ :=
  let frzcpi := wfn.frzcpi
  let active_mopi := fun h => wfn.nmopi h - wfn.frzcpi h - wfn.frzvpi h
  let nirrep := wfn.nirrep
  let walk :=
    forLoop 0 nirrep (fun h1 (st : Nat × Nat × FILE) =>
      let ioff1 := st.1
      let nfrz1 := st.2.1 + frzcpi h1
      let inner :=
        forLoop h1 nirrep (fun h2 (st2 : Nat × Nat × FILE) =>
          let ioff2 := st2.1
          let nfrz2 := st2.2.1
          let out :=
            forLoop (frzcpi h1) (frzcpi h1 + active_mopi h1) (fun m1 f =>
              let m2_init := if h1 = h2 then m1 else frzcpi h2
              forLoop m2_init (frzcpi h2 + active_mopi h2) (fun m2 f =>
                let iorb1 := m1 + ioff1
                let iorb2 := m2 + ioff2
                let intgrl := TMP1 iorb1 iorb2
                if |intgrl| > ints_tolerance then
                  fprintf f ⟨29, intgrl,
                    [indx ((iorb1 : Int) - (nfrz1 : Int)), indx ((iorb2 : Int) - (nfrz2 : Int))]⟩
                else f) f) st2.2.2
          (ioff2 + prop_rowdim h2, nfrz2 + frzcpi h2, out))
        (ioff1, nfrz1, st.2.2)
      (ioff1 + prop_rowdim h1, nfrz1, inner.2.2))
    (0, 0, intdump)
  let frz_contrib : ℚ := 0
  let frz :=
    forLoop 0 nirrep (fun h (st : Nat × ℚ) =>
      let ioff1 := st.1
      (ioff1 + prop_rowdim h,
       forLoop 0 (frzcpi h) (fun m c =>
        let iorb := m + ioff1
        c + 2 * TMP1 iorb iorb) st.2))
    (0, frz_contrib)
  (walk.2.2, frz.2)

/-! ## Specification-side vocabulary -/

/-- The offset `off(h)` of irrep `h`: the sum of `d h'` over the irreps
`h' < h`. -/
def irrepOffset (d : Nat → Nat) (h : Nat) : Nat := ((List.range h).map d).sum

/-- The triples `(h, m, n)` with `h < N`, `m < rows h` and `n < cols h m`,
listed with `h` ascending, then `m` ascending, then `n` ascending. -/
def triples (N : Nat) (rows : Nat → Nat) (cols : Nat → Nat → Nat) : List (Nat × Nat × Nat) :=
  (List.range N).flatMap (fun h =>
    (List.range (rows h)).flatMap (fun m =>
      (List.range (cols h m)).map (fun n => (h, m, n))))

/-- Strict lexicographic order on triples. -/
def lexLt3 (a b : Nat × Nat × Nat) : Prop :=
  a.1 < b.1 ∨ (a.1 = b.1 ∧ (a.2.1 < b.2.1 ∨ (a.2.1 = b.2.1 ∧ a.2.2 < b.2.2)))

/-- The positions `(h, m, n)` of the lower triangles (diagonal included) of
all irrep blocks of a matrix. -/
def lowerTriangle (moH : SharedMatrix) : List (Nat × Nat × Nat) :=
  triples moH.nirrep moH.rowdim (fun _ m => m + 1)

/-- The record `(H(h,m,n), map(m + off h), map(n + off h), 0, 0)` of the
position `t = (h, m, n)`. -/
def oei_record (moH : SharedMatrix) (map : orb_indx) (t : Nat × Nat × Nat) : Record :=
  ⟨29, moH.get t.1 t.2.1 t.2.2,
    [map ((t.2.1 + irrepOffset moH.rowdim t.1 : Nat) : Int),
     map ((t.2.2 + irrepOffset moH.rowdim t.1 : Nat) : Int), 0, 0]⟩

/-- The records the one-electron writer is specified to emit: those of the
lower-triangle positions whose element exceeds the cutoff in magnitude, in
the order of `lowerTriangle`. -/
def oei_records (moH : SharedMatrix) (tau : ℚ) (map : orb_indx) : List Record :=
  ((lowerTriangle moH).filter (fun t => |moH.get t.1 t.2.1 t.2.2| > tau)).map
    (oei_record moH map)

/-- The end-to-end scenario of the specification: two irreps of dimensions
`[2, 1]` and a single non-zero element, on the diagonal at row 1 of irrep 0. -/
def scenarioH : SharedMatrix :=
  ⟨2, fun h => [2, 1].getD h 0,
    fun h m n => if h = 0 ∧ m = 1 ∧ n = 1 then 123456789012345678901 / 10 ^ 20 else 0⟩

/-- The number of lower-triangle positions (diagonal included) of all irrep
blocks: the sum over `h` of `d(h) * (d(h) + 1) / 2`. -/
def triangleCount (moH : SharedMatrix) : Nat :=
  ((List.range moH.nirrep).map (fun h => moH.rowdim h * (moH.rowdim h + 1) / 2)).sum

/-- A matrix with irrep dimensions `[2, 1]` whose only non-zero element is
the diagonal element at row 1 of irrep 0. -/
def sparseH : SharedMatrix :=
  ⟨2, fun h => [2, 1].getD h 0, fun h m n => if h = 0 ∧ m = 1 ∧ n = 1 then 5 else 0⟩

/-- A matrix with irrep dimensions `[2, 1]` without any zero element. -/
def denseH : SharedMatrix :=
  ⟨2, fun h => [2, 1].getD h 0, fun h m n => 1 + h + m + n⟩

/-- The positions `(h, pq, rs)` of a packed four-index buffer: `h < nirrep`,
`pq < rowtot h`, `rs < coltot h`, in the order `h`, then `pq`, then `rs`. -/
def teiTriples (nirrep : Nat) (K : dpdbuf4) : List (Nat × Nat × Nat) :=
  triples nirrep K.params.rowtot (fun h _ => K.params.coltot h)

/-- The record `(K[h][pq][rs], map1 p, map1 q, map2 r, map2 s)` of the
position `t = (h, pq, rs)`, where `(p, q) = roworb[h][pq]` and
`(r, s) = colorb[h][rs]`. -/
def tei_record (K : dpdbuf4) (map1 map2 : orb_indx) (t : Nat × Nat × Nat) : Record :=
  ⟨28, K.matrix t.1 t.2.1 t.2.2,
    [map1 (K.params.roworb t.1 t.2.1).1, map1 (K.params.roworb t.1 t.2.1).2,
     map2 (K.params.colorb t.1 t.2.2).1, map2 (K.params.colorb t.1 t.2.2).2]⟩

/-- The records the two-electron writer is specified to emit: those of the
positions whose element exceeds the cutoff in magnitude, in the order of
`teiTriples`. -/
def tei_records (nirrep : Nat) (K : dpdbuf4) (tau : ℚ) (map1 map2 : orb_indx) : List Record :=
  ((teiTriples nirrep K).filter (fun t => |K.matrix t.1 t.2.1 t.2.2| > tau)).map
    (tei_record K map1 map2)

/-- The orbital pairs listed by the row pair tables of all irreps, in table
order. -/
def rowPairs (nirrep : Nat) (K : dpdbuf4) : List (Int × Int) :=
  (List.range nirrep).flatMap (fun h => (List.range (K.params.rowtot h)).map (K.params.roworb h))

/-- The orbital pairs listed by the column pair tables of all irreps, in
table order. -/
def colPairs (nirrep : Nat) (K : dpdbuf4) : List (Int × Int) :=
  (List.range nirrep).flatMap (fun h => (List.range (K.params.coltot h)).map (K.params.colorb h))

/-- The canonical pair table `[A>=A]` of two orbitals that share one irrep:
packed index 0, 1, 2 stands for the pair (0,0), (1,0), (1,1). -/
def pairTable2 (pq : Nat) : Int × Int := [((0 : Int), (0 : Int)), (1, 0), (1, 1)].getD pq (0, 0)

/-- A same-spin block `(AA|AA)` of two orbitals in one irrep: the same
canonical pair table on both sides and a matrix that is symmetric under the
exchange of the row pair with the column pair. -/
def sameSpinK : dpdbuf4 :=
  ⟨⟨fun _ => 3, fun _ => 3, fun _ => pairTable2, fun _ => pairTable2⟩,
    fun _ pq rs => ((pq + 1) * (rs + 1) : Nat)⟩

/-- The records the eigenvalue writer is specified to emit: for every irrep
`h` and every `j < active h`, in this order, the energy `eigv(h, frzc h + j)`
with the index `map(k)`, `k = (sum of active h' over h' < h) + j`. -/
def eigv_records (frzcpi active_mopi : Dimension) (eigv : Nat → Nat → ℚ) (map : orb_indx) :
    List Record :=
  (List.range active_mopi.n).flatMap (fun h =>
    (List.range (active_mopi.get h)).map (fun j =>
      (⟨28, eigv h (frzcpi.get h + j),
        [map ((irrepOffset active_mopi.get h + j : Nat) : Int), 0, 0, 0]⟩ : Record)))

/-- A wavefunction with two irreps holding `[2, 1]` orbitals, of which the
first orbital of irrep 0 is a frozen core orbital and none is a frozen
virtual: the active counts are `[1, 1]`. -/
def frozenCoreWfn : Wavefunction :=
  ⟨2, fun h => [2, 1].getD h 0, fun h => [1, 0].getD h 0, fun _ => 0⟩

/-- A symmetric MO-basis property matrix without zero elements. -/
def propP (i j : Nat) : ℚ := ((3 + i + j : Nat) : ℚ)

/-- The sum of the diagonal elements `P(off h + m, off h + m)` of the frozen
core orbitals `m < frzc h` of all irreps. -/
def frozenCoreSum (nirrep : Nat) (dim frzc : Nat → Nat) (P : Nat → Nat → ℚ) : ℚ :=
  ((List.range nirrep).map (fun h =>
    ((List.range (frzc h)).map (fun m =>
      P (irrepOffset dim h + m) (irrepOffset dim h + m))).sum)).sum

/-- A wavefunction with two irreps holding `[2, 1]` orbitals, none of them
frozen. -/
def noFrozenWfn : Wavefunction :=
  ⟨2, fun h => [2, 1].getD h 0, fun _ => 0, fun _ => 0⟩

/-! ## The dump orchestrator `fcidump` (`fcidump.cc`, lines 195-396) -/

/-- The options `fcidump` reads: `REFERENCE`, `INTEGRALS_FILE`,
`DIPOLE_INTEGRALS`, `PRINT_EIGENVALUES` and `INTS_TOLERANCE`. -/
structure Options where
  REFERENCE : String
  INTEGRALS_FILE : String
  DIPOLE_INTEGRALS : Bool
  PRINT_EIGENVALUES : Bool
  INTS_TOLERANCE : ℚ

/-- The wavefunction as `fcidump` reads it: the orbital-space dimensions of
`Wavefunction`, the occupations, the electron counts, the flag
`same_a_b_orbs()`, the orbital energies and the nuclear repulsion energy of
its molecule. -/
structure SCFWavefunction extends Wavefunction where
  doccpi : Nat → Nat
  soccpi : Nat → Nat
  nalpha : Int
  nbeta : Int
  same_a_b_orbs : Bool
  epsilon_a : Nat → Nat → ℚ
  epsilon_b : Nat → Nat → ℚ
  nuclear_repulsion_energy : ℚ

/-- What the collaborators outside this source file hand to `fcidump`: the
three packed buffers of the integral transformation, the one-electron
operators stored under the labels `PSIF_MO_FZC`, `PSIF_MO_A_FZC` and
`PSIF_MO_B_FZC` (full orbital space), the frozen-core energy, for the property
dumps the block dimensions of the property matrices, the matrices `TMP1` that
the BLAS calls leave behind for the three dipole components and for the
quadrupole component 5, the nuclear contributions and the value found in the
uninitialised variable `frz_contrib`, and finally whether `fopen` of a given
file name yields a handle. -/
structure Collaborators where
  K_AA : dpdbuf4
  K_aa : dpdbuf4
  K_Aa : dpdbuf4
  moH_fzc : Nat → Nat → Nat → ℚ
  moH_a_fzc : Nat → Nat → Nat → ℚ
  moH_b_fzc : Nat → Nat → Nat → ℚ
  frozen_core_energy : ℚ
  so_rowdim : Nat → Nat
  dipole_mo : Nat → Nat → Nat → ℚ
  trquad_mo : Nat → Nat → ℚ
  ndip : Nat → ℚ
  nquad : ℚ
  frz_contrib : ℚ
  fopen_ok : String → Bool

/-- A file that `fcidump` has opened: its name, the chunks of header text
written to it (one per `fprintf` call) and the records written after them. -/
structure DumpFile where
  name : String
  text : List String
  records : FILE
deriving DecidableEq

/-- How a run of `fcidump` ends: it returns, it throws a `PSIEXCEPTION` with
the given message, or it passes the null handle of a file that could not be
opened to `fprintf` (undefined behaviour in C; the run is followed no
further). -/
inductive Status where
  | returned : Status
  | threw (what : String) : Status
  | null_stream (name : String) : Status
deriving DecidableEq

/-- The observable result of a run: how it ended and the files it opened,
in the order of opening, with what was written to them. -/
structure Outcome where
  status : Status
  files : List DumpFile
deriving DecidableEq

/-- `Dimension::sum()`. -/
def Dimension.sum (d : Dimension) : Nat := ((List.range d.n).map d.get).sum

/-- The libmints `View` of a square symmetry-blocked matrix: the block of
`dims.get h` rows and columns that starts at row and column `offsets.get h`
in every irrep. -/
def View (full : Nat → Nat → Nat → ℚ) (dims offsets : Dimension) : SharedMatrix :=
  ⟨dims.n, dims.get, fun h m n => full h (m + offsets.get h) (n + offsets.get h)⟩

/-- Lines 236-256 of `fcidump`: the header, one chunk per `fprintf` call. -/
def fcidump_header (nbf : Nat) (nelectron ms2 : Int) (restricted : Bool)
    (frzcpi active_mopi : Dimension) : List String :=
  let t : List String := []
  let t := t ++ ["&FCI\n"]
  let t := t ++ ["NORB=" ++ toString nbf ++ ",\n"]
  let t := t ++ ["NELEC=" ++ toString nelectron ++ ",\n"]
  let t := t ++ ["MS2=" ++ toString ms2 ++ ",\n"]
  let t := if restricted then t ++ ["UHF=.FALSE.,\n"] else t ++ ["UHF=.TRUE.,\n"]
  let t := t ++ ["ORBSYM="]
  let t :=
    forLoop 0 active_mopi.n (fun h t =>
      forLoop (frzcpi.get h) (frzcpi.get h + active_mopi.get h) (fun n t =>
        let t := t ++ [toString (h + 1) ++ ","]
        if !restricted then t ++ [toString (h + 1) ++ ","] else t) t) t
  t ++ ["\n&END\n"]

/-- Lines 317-322 and 328-331 of `fcidump`: one property side file.  The
state is the status of the run, the files opened so far and the content of
the variable `frz_contrib`. -/
def dump_property (wfn : Wavefunction) (ext : Collaborators) (ints_tolerance : ℚ)
    (fname : String) (TMP1 : Nat → Nat → ℚ) (nuclear : ℚ)
    (st : Status × List DumpFile × ℚ) : Status × List DumpFile × ℚ :=
  if st.1 = Status.returned then
    if ext.fopen_ok fname then
      let r := write_oei_prop_to_disk [] wfn ext.so_rowdim TMP1 ints_tolerance mo_index st.2.2
      let dipoledump := fprintf r.1 ⟨29, nuclear + r.2, [0, 0]⟩
      (Status.returned, st.2.1 ++ [⟨fname, [], dipoledump⟩], r.2)
    else (Status.null_stream fname, st.2.1, st.2.2)
  else st

/-- The active dimensions `nmopi - frzcpi - frzvpi` computed at line 210
(differences truncated at 0, as in `write_oei_prop_to_disk`). -/
def SCFWavefunction.active_mopi (wfn : SCFWavefunction) : Dimension :=
  ⟨wfn.nirrep, fun h => wfn.nmopi h - wfn.frzcpi h - wfn.frzvpi h⟩

/-- The electron count `2 * active_docc.sum() + active_socc.sum()` of line 214,
with `active_docc = docc - frzcpi`. -/
def SCFWavefunction.nelectron (wfn : SCFWavefunction) : Int :=
  2 * ((List.range wfn.nirrep).map (fun h => (wfn.doccpi h : Int) - (wfn.frzcpi h : Int))).sum
    + ((List.range wfn.nirrep).map (fun h => (wfn.soccpi h : Int))).sum

/-- Lines 280-303 of `fcidump`: the records of the restricted branch. -/
def fcidump_restricted (wfn : SCFWavefunction) (options : Options) (ext : Collaborators)
    (intdump : FILE) : FILE :=
  let frzcpi : Dimension := ⟨wfn.nirrep, wfn.frzcpi⟩
  let active_mopi := wfn.active_mopi
  let nirrep := wfn.nirrep
  let ints_tolerance := options.INTS_TOLERANCE
  let intdump := write_tei_to_disk intdump nirrep ext.K_AA ints_tolerance mo_index mo_index
  let moH := View ext.moH_fzc active_mopi frzcpi
  let intdump := write_oei_to_disk intdump moH ints_tolerance mo_index
  let intdump :=
    if options.PRINT_EIGENVALUES then
      write_eigv_to_disk intdump frzcpi active_mopi wfn.epsilon_a mo_index
    else intdump
  fprintf intdump ⟨28, ext.frozen_core_energy + wfn.nuclear_repulsion_energy, [0, 0, 0, 0]⟩

/-- Lines 305-333 of `fcidump`: the property side files of the restricted
branch, written after the main file `main`. -/
def fcidump_properties (wfn : SCFWavefunction) (options : Options) (ext : Collaborators)
    (main : DumpFile) : Outcome :=
  let ints_tolerance := options.INTS_TOLERANCE
  let fname : Nat → String := fun i => ["DIPOLES_X", "DIPOLES_Y", "DIPOLES_Z"].getD i ""
  let st : Status × List DumpFile × ℚ := (Status.returned, [main], ext.frz_contrib)
  let st :=
    forLoop 0 3 (fun i st =>
      dump_property wfn.toWavefunction ext ints_tolerance (fname i) (ext.dipole_mo i)
        (ext.ndip i) st) st
  let st :=
    dump_property wfn.toWavefunction ext ints_tolerance "TRQUAD_ZZ" ext.trquad_mo ext.nquad st
  ⟨st.1, st.2.1⟩

/-- Lines 335-389 of `fcidump`: the records of the unrestricted branch. -/
def fcidump_unrestricted (wfn : SCFWavefunction) (options : Options) (ext : Collaborators)
    (intdump : FILE) : FILE :=
  let frzcpi : Dimension := ⟨wfn.nirrep, wfn.frzcpi⟩
  let active_mopi := wfn.active_mopi
  let nirrep := wfn.nirrep
  let ints_tolerance := options.INTS_TOLERANCE
  let intdump := write_tei_to_disk intdump nirrep ext.K_AA ints_tolerance alpha_index alpha_index
  let intdump := write_tei_to_disk intdump nirrep ext.K_aa ints_tolerance beta_index beta_index
  let intdump := write_tei_to_disk intdump nirrep ext.K_Aa ints_tolerance alpha_index beta_index
  let moH := View ext.moH_a_fzc active_mopi frzcpi
  let intdump := write_oei_to_disk intdump moH ints_tolerance alpha_index
  let moHb := View ext.moH_b_fzc active_mopi frzcpi
  let intdump := write_oei_to_disk intdump moHb ints_tolerance beta_index
  let intdump :=
    if options.PRINT_EIGENVALUES then
      write_eigv_to_disk
        (write_eigv_to_disk intdump frzcpi active_mopi wfn.epsilon_a alpha_index)
        frzcpi active_mopi wfn.epsilon_b beta_index
    else intdump
  fprintf intdump ⟨28, ext.frozen_core_energy + wfn.nuclear_repulsion_energy, [0, 0, 0, 0]⟩

/-- The orchestrator `fcidump`.  The log output (`outfile->Printf`) and the
calls that drive the integral transformation and the storage library are not
modelled; what they produce is read from `ext`.  The header (lines 236-256),
the two branches (lines 280-303 and 335-389) and the property dumps (lines
305-333) are the functions above. -/
def fcidump (wfn : Option SCFWavefunction) (options : Options) (ext : Collaborators) : Outcome :=
  match wfn with
  | none => ⟨Status.threw "SCF has not been run yet!", []⟩
  | some wfn =>
    let frzcpi : Dimension := ⟨wfn.nirrep, wfn.frzcpi⟩
    let active_mopi := wfn.active_mopi
    let nbf := active_mopi.sum
    let nelectron := wfn.nelectron
    let restricted := wfn.same_a_b_orbs
    let dump_dipoles := options.DIPOLE_INTEGRALS
    let nbf := if restricted then nbf else nbf * 2
    if options.REFERENCE = "ROHF" then
      ⟨Status.threw "FCIDUMP not implemented for ROHF references.", []⟩
    else if ext.fopen_ok options.INTEGRALS_FILE then
      let text := fcidump_header nbf nelectron (wfn.nalpha - wfn.nbeta) restricted frzcpi active_mopi
      if restricted then
        let main : DumpFile :=
          ⟨options.INTEGRALS_FILE, text, fcidump_restricted wfn options ext []⟩
        if dump_dipoles then fcidump_properties wfn options ext main
        else ⟨Status.returned, [main]⟩
      else
        ⟨Status.returned, [⟨options.INTEGRALS_FILE, text, fcidump_unrestricted wfn options ext []⟩]⟩
    else ⟨Status.null_stream options.INTEGRALS_FILE, []⟩

/-- The labels of the `ORBSYM` line as the specification describes them: in
irrep order, the label `h+1` followed by a comma, once per active orbital of
irrep `h` for a restricted reference and twice for an unrestricted one. -/
def orbsym_labels (restricted : Bool) (nirrep : Nat) (active : Nat → Nat) : List String :=
  (List.range nirrep).flatMap (fun h =>
    List.replicate (if restricted then active h else 2 * active h) (toString (h + 1) ++ ","))

/-- A restricted wavefunction with two irreps, active dimensions `[2, 1]` and
no frozen orbitals. -/
def rhfWfn : SCFWavefunction :=
  { nirrep := 2, nmopi := fun h => [2, 1].getD h 0, frzcpi := fun _ => 0, frzvpi := fun _ => 0,
    doccpi := fun h => [1, 0].getD h 0, soccpi := fun _ => 0, nalpha := 1, nbeta := 1,
    same_a_b_orbs := true, epsilon_a := fun h i => ((h + i : Nat) : ℚ) - 2,
    epsilon_b := fun h i => ((h + i : Nat) : ℚ) - 2, nuclear_repulsion_energy := 1 }

/-- An unrestricted wavefunction with one irrep of active dimension 2. -/
def uhfWfn : SCFWavefunction :=
  { nirrep := 1, nmopi := fun _ => 2, frzcpi := fun _ => 0, frzvpi := fun _ => 0,
    doccpi := fun _ => 0, soccpi := fun _ => 1, nalpha := 1, nbeta := 0,
    same_a_b_orbs := false, epsilon_a := fun _ i => ((i : Nat) : ℚ) - 2,
    epsilon_b := fun _ i => ((i : Nat) : ℚ) - 1, nuclear_repulsion_energy := 1 }

/-- Collaborator data for the example runs; every file can be opened. -/
def exampleExt : Collaborators :=
  { K_AA := sameSpinK, K_aa := sameSpinK, K_Aa := sameSpinK,
    moH_fzc := fun h m n => ((1 + h + m + n : Nat) : ℚ),
    moH_a_fzc := fun h m n => ((1 + h + m + n : Nat) : ℚ),
    moH_b_fzc := fun h m n => ((2 + h + m + n : Nat) : ℚ),
    frozen_core_energy := 0, so_rowdim := fun h => [2, 1].getD h 0,
    dipole_mo := fun _ i j => ((1 + i + j : Nat) : ℚ), trquad_mo := fun i j => ((1 + i + j : Nat) : ℚ),
    ndip := fun _ => 0, nquad := 0, frz_contrib := 0, fopen_ok := fun _ => true }

/-- Default options, with a restricted or unrestricted reference name and the
dipole dump switched on or off. -/
def exampleOptions (reference : String) (dipoles : Bool) : Options :=
  ⟨reference, "INTDUMP", dipoles, true, 0⟩

/-- The two orbital indices `(p, q)` of a record. -/
def idxPair (r : Record) : Int × Int := (r.idx.getD 0 0, r.idx.getD 1 0)

/-- Strict lexicographic order on index pairs. -/
def lexLt2 (a b : Int × Int) : Prop := a.1 < b.1 ∨ (a.1 = b.1 ∧ a.2 < b.2)

/-- A packed buffer with one irrep, one row pair and one column pair. -/
def tinyK : dpdbuf4 :=
  ⟨⟨fun _ => 1, fun _ => 1, fun _ _ => (0, 0), fun _ _ => (0, 0)⟩, fun _ _ _ => 3⟩

/-- A matrix with irrep dimensions `[2, 1]` and the positive elements
`1 + h + m + n`. -/
def gridH : SharedMatrix :=
  ⟨2, fun h => [2, 1].getD h 0, fun h m n => ((1 + h + m + n : Nat) : ℚ)⟩

/-- The orbital pairs the property writer visits, as quadruples
`(h1, h2, m1, m2)` in loop order: `h1 < nirrep`, `h1 ≤ h2 < nirrep`, `m1` in
the active window `[c h1, c h1 + a h1)` of irrep `h1`, and `m2` in the active
window of irrep `h2`, starting at `m1` when `h1 = h2`. -/
def propVisits (nirrep : Nat) (c a : Nat → Nat) : List (Nat × Nat × Nat × Nat) :=
  (List.range nirrep).flatMap (fun h1 =>
    (List.range' h1 (nirrep - h1)).flatMap (fun h2 =>
      (List.range' (c h1) (a h1)).flatMap (fun m1 =>
        (List.range' (if h1 = h2 then m1 else c h2)
          (c h2 + a h2 - (if h1 = h2 then m1 else c h2))).map (fun m2 => (h1, h2, m1, m2)))))

/-- The matrix position `(iorb1, iorb2)` read at a visit, for block
dimensions `d`. -/
def visitPos (d : Nat → Nat) (q : Nat × Nat × Nat × Nat) : Nat × Nat :=
  (q.2.2.1 + irrepOffset d q.1, q.2.2.2 + irrepOffset d q.2.1)

/-- The pair of global zero-based active positions of the two orbitals of a
visit, for frozen-core counts `c` and active counts `a`. -/
def visitActive (c a : Nat → Nat) (q : Nat × Nat × Nat × Nat) : Nat × Nat :=
  (irrepOffset a q.1 + (q.2.2.1 - c q.1), irrepOffset a q.2.1 + (q.2.2.2 - c q.2.1))

/-- The record the property writer prints at a visit: the element at the
visited position with the two indices `indx(iorb1 - nfrz1)` and
`indx(iorb2 - nfrz2)`, where `nfrz1` is the number of frozen core orbitals of
the irreps up to `h1` and `nfrz2` is `nfrz1` plus the frozen core orbitals of
the irreps from `h1` up to, but not including, `h2` (the values the two
counters hold in the loop). -/
def prop_record (d c : Nat → Nat) (P : Nat → Nat → ℚ) (map : orb_indx)
    (q : Nat × Nat × Nat × Nat) : Record :=
  ⟨29, P (q.2.2.1 + irrepOffset d q.1) (q.2.2.2 + irrepOffset d q.2.1),
    [map (((q.2.2.1 + irrepOffset d q.1 : Nat) : Int) - ((irrepOffset c (q.1 + 1) : Nat) : Int)),
     map (((q.2.2.2 + irrepOffset d q.2.1 : Nat) : Int) -
       ((irrepOffset c (q.1 + 1) + (irrepOffset c q.2.1 - irrepOffset c q.1) : Nat) : Int))]⟩

/-- The pairs `(g1, g2)` with `g1 ≤ g2 < N`: the upper triangle, diagonal
included, of an `N × N` matrix. -/
def upperTriangle (N : Nat) : List (Nat × Nat) :=
  (List.range N).flatMap (fun g1 => (List.range' g1 (N - g1)).map (fun g2 => (g1, g2)))

/-- The per-irrep active counts `nmopi - frzcpi - frzvpi` of line 131. -/
def Wavefunction.active (wfn : Wavefunction) (h : Nat) : Nat :=
  wfn.nmopi h - wfn.frzcpi h - wfn.frzvpi h

/-! ## Loop lemmas -/

theorem forLoop_zero_eq {σ : Type} (n : Nat) (body : Nat → σ → σ) (s : σ) :
    forLoop 0 n body s = (List.range n).foldl (fun st i => body i st) s := by
  simp [forLoop, List.range_eq_range']

theorem forLoop_succ {σ : Type} (n : Nat) (body : Nat → σ → σ) (s : σ) :
    forLoop 0 (n + 1) body s = body n (forLoop 0 n body s) := by
  simp [forLoop_zero_eq, List.range_succ, List.foldl_append]

theorem forLoop_shift {σ : Type} (lo a : Nat) (body : Nat → σ → σ) (s : σ) :
    forLoop lo (lo + a) body s = forLoop 0 a (fun j => body (lo + j)) s := by
  simp [forLoop, List.range'_eq_map_range, List.foldl_map]

theorem forLoop_emit (n : Nat) (g : Nat → FILE) (f0 : FILE) :
    forLoop 0 n (fun i f => f ++ g i) f0 = f0 ++ (List.range n).flatMap g := by
  induction n with
  | zero => simp [forLoop]
  | succ n ih => rw [forLoop_succ, ih]; simp [List.range_succ]

theorem forLoop_cond_emit (n : Nat) (c : Nat → Prop) [DecidablePred c] (r : Nat → Record)
    (f0 : FILE) :
    forLoop 0 n (fun i f => if c i then fprintf f (r i) else f) f0 =
      f0 ++ ((List.range n).filter (fun i => c i)).map r := by
  induction n with
  | zero => simp [forLoop]
  | succ n ih =>
    rw [forLoop_succ, ih]
    by_cases h : c n <;> simp [List.range_succ, List.filter_append, h, fprintf]

theorem forLoop_offset_emit (N : Nat) (d : Nat → Nat) (G : Nat → Nat → FILE) (f0 : FILE) :
    forLoop 0 N (fun h (st : Nat × FILE) => (st.1 + d h, st.2 ++ G st.1 h)) (0, f0) =
      (irrepOffset d N, f0 ++ (List.range N).flatMap (fun h => G (irrepOffset d h) h)) := by
  induction N with
  | zero => simp [forLoop, irrepOffset]
  | succ N ih => rw [forLoop_succ, ih]; simp [irrepOffset, List.range_succ]

/-! ## Lemmas on `triples` -/

theorem mem_triples (N : Nat) (rows : Nat → Nat) (cols : Nat → Nat → Nat) (h m n : Nat) :
    (h, m, n) ∈ triples N rows cols ↔ h < N ∧ m < rows h ∧ n < cols h m := by
  simp only [triples, List.mem_flatMap, List.mem_map, List.mem_range, Prod.mk.injEq]
  constructor
  · rintro ⟨h', hh, m', hm, n', hn, rfl, rfl, rfl⟩; exact ⟨hh, hm, hn⟩
  · rintro ⟨hh, hm, hn⟩; exact ⟨h, hh, m, hm, n, hn, rfl, rfl, rfl⟩

theorem triples_filter_map (N : Nat) (rows : Nat → Nat) (cols : Nat → Nat → Nat)
    (c : Nat × Nat × Nat → Bool) (r : Nat × Nat × Nat → Record) :
    ((triples N rows cols).filter c).map r =
      (List.range N).flatMap (fun h => (List.range (rows h)).flatMap (fun m =>
        ((List.range (cols h m)).filter (fun n => c (h, m, n))).map (fun n => r (h, m, n)))) := by
  simp only [triples, List.filter_flatMap, List.map_flatMap, List.filter_map, List.map_map]
  rfl

theorem range_pairwise_lt (n : Nat) : (List.range n).Pairwise (· < ·) := by
  induction n with
  | zero => simp
  | succ n ih =>
    rw [List.range_succ, List.pairwise_append]
    refine ⟨ih, by simp, ?_⟩
    intro a ha b hb
    simp at ha hb
    omega

theorem triples_pairwise (N : Nat) (rows : Nat → Nat) (cols : Nat → Nat → Nat) :
    (triples N rows cols).Pairwise lexLt3 := by
  unfold triples
  rw [List.pairwise_flatMap]
  constructor
  · intro h _
    rw [List.pairwise_flatMap]
    constructor
    · intro m _
      rw [List.pairwise_map]
      exact (range_pairwise_lt _).imp (fun hlt => Or.inr ⟨rfl, Or.inr ⟨rfl, hlt⟩⟩)
    · refine (range_pairwise_lt _).imp ?_
      intro m m' hlt a ha b hb
      simp only [List.mem_map] at ha hb
      obtain ⟨_, _, rfl⟩ := ha
      obtain ⟨_, _, rfl⟩ := hb
      exact Or.inr ⟨rfl, Or.inl hlt⟩
  · refine (range_pairwise_lt _).imp ?_
    intro h h' hlt a ha b hb
    simp only [List.mem_flatMap, List.mem_map] at ha hb
    obtain ⟨_, _, _, _, rfl⟩ := ha
    obtain ⟨_, _, _, _, rfl⟩ := hb
    exact Or.inl hlt

/-! ## The one-electron writer -/

theorem write_oei_to_disk_eq (intdump : FILE) (moH : SharedMatrix) (tau : ℚ) (map : orb_indx) :
    write_oei_to_disk intdump moH tau map = intdump ++ oei_records moH tau map := by
  unfold write_oei_to_disk oei_records lowerTriangle
  simp only [forLoop_cond_emit, forLoop_emit]
  rw [forLoop_offset_emit moH.nirrep moH.rowdim
    (fun offset h => (List.range (moH.rowdim h)).flatMap (fun m =>
      ((List.range (m + 1)).filter (fun n => |moH.get h m n| > tau)).map (fun n =>
        (⟨29, moH.get h m n,
          [map ((m + offset : Nat) : Int), map ((n + offset : Nat) : Int), 0, 0]⟩ : Record))))]
  rw [triples_filter_map]
  rfl

theorem write_tei_to_disk_eq (intdump : FILE) (nirrep : Nat) (K : dpdbuf4) (tau : ℚ)
    (map1 map2 : orb_indx) :
    write_tei_to_disk intdump nirrep K tau map1 map2 =
      intdump ++ tei_records nirrep K tau map1 map2 := by
  unfold write_tei_to_disk tei_records teiTriples
  simp only [forLoop_cond_emit, forLoop_emit]
  rw [triples_filter_map]
  rfl

theorem sum_triangle_row (d : Nat) :
    ((List.range d).map (fun m => m + 1)).sum = d * (d + 1) / 2 := by
  have h2 : 2 * ((List.range d).map (fun m => m + 1)).sum = d * (d + 1) := by
    induction d with
    | zero => simp
    | succ d ih =>
      simp only [List.range_succ, List.map_append, List.sum_append, Nat.mul_add, ih]
      simp; ring
  generalize d * (d + 1) = x at h2
  omega

theorem length_triples (N : Nat) (rows : Nat → Nat) (cols : Nat → Nat → Nat) :
    (triples N rows cols).length =
      ((List.range N).map (fun h => ((List.range (rows h)).map (fun m => cols h m)).sum)).sum := by
  simp [triples, List.length_flatMap, Function.comp_def]

theorem length_lowerTriangle (moH : SharedMatrix) :
    (lowerTriangle moH).length = triangleCount moH := by
  simp only [lowerTriangle, length_triples, triangleCount, sum_triangle_row]

theorem mem_lowerTriangle (moH : SharedMatrix) (h m n : Nat) :
    (h, m, n) ∈ lowerTriangle moH ↔ h < moH.nirrep ∧ n ≤ m ∧ m < moH.rowdim h := by
  rw [lowerTriangle, mem_triples]
  constructor
  · rintro ⟨a, b, c⟩; exact ⟨a, by omega, b⟩
  · rintro ⟨a, b, c⟩; exact ⟨a, c, by omega⟩

theorem mem_spinIndices (n : Nat) (v : Int) :
    v ∈ spinIndices n ↔ 1 ≤ v ∧ v ≤ 2 * (n : Int) := by
  simp only [spinIndices, List.mem_flatMap, List.mem_range, List.mem_cons, List.mem_singleton,
    alpha_index, beta_index, List.not_mem_nil, or_false]
  constructor
  · rintro ⟨i, hi, h | h⟩ <;> omega
  · rintro ⟨h1, h2⟩
    refine ⟨((v - 1) / 2).toNat, ?_, ?_⟩
    · omega
    · have hc : (((v - 1) / 2).toNat : Int) = (v - 1) / 2 := Int.toNat_of_nonneg (by omega)
      rw [hc]; omega

theorem spinIndices_succ (n : Nat) :
    spinIndices (n + 1) = spinIndices n ++ [alpha_index n, beta_index n] := by
  simp [spinIndices, List.range_succ]

theorem spinIndices_sorted (n : Nat) : (spinIndices n).Pairwise (· < ·) := by
  induction n with
  | zero => simp [spinIndices]
  | succ n ih =>
    rw [spinIndices_succ, List.pairwise_append]
    refine ⟨ih, by simp [alpha_index, beta_index]; omega, ?_⟩
    intro a ha b hb
    rw [mem_spinIndices] at ha
    simp [alpha_index, beta_index] at hb
    omega

/-! ## Results on the index mapper and the integral writers -/

/-- C1: for a zero-based position `i ≥ 0` with `2i+2` inside the `int` range,
`mo_index i = i+1`, `alpha_index i = 2i+1`, `beta_index i = 2i+2`; the three
results are positive (and representable), the alpha index is odd, the beta
index is even, `alpha = 2*mo - 1`, `beta = 2*mo`; and the alpha index of a
position `a ≥ 0` never equals the beta index of a position `b ≥ 0`. -/
theorem index_contract (i : Int) (h0 : 0 ≤ i) (hr : 2 * i + 2 ≤ INT_MAX) :
    mo_index i = i + 1 ∧ alpha_index i = 2 * i + 1 ∧ beta_index i = 2 * i + 2 ∧
    (0 < mo_index i ∧ 0 < alpha_index i ∧ 0 < beta_index i) ∧
    (mo_index i ≤ INT_MAX ∧ alpha_index i ≤ INT_MAX ∧ beta_index i ≤ INT_MAX) ∧
    Odd (alpha_index i) ∧ Even (beta_index i) ∧
    alpha_index i = 2 * mo_index i - 1 ∧ beta_index i = 2 * mo_index i ∧
    ∀ a b : Int, 0 ≤ a → 0 ≤ b → alpha_index a ≠ beta_index b := by
  unfold mo_index alpha_index beta_index INT_MAX at *
  refine ⟨rfl, rfl, by ring, ⟨by omega, by omega, by omega⟩, ⟨by omega, by omega, by omega⟩,
    ⟨i, rfl⟩, ⟨i + 1, by ring⟩, by ring, by ring, ?_⟩
  intro a b _ _ h
  omega

/-- Witness for C1 at position 3: the three indices are 4, 7 and 8. -/
theorem index_contract_witness :
    (0 : Int) ≤ 3 ∧ 2 * (3 : Int) + 2 ≤ INT_MAX ∧ mo_index 3 = 4 ∧ alpha_index 3 = 7 ∧
      beta_index 3 = 8 :=
  have h := index_contract 3 (by decide) (by decide)
  ⟨by decide, by decide, h.1, h.2.1, h.2.2.1⟩

/-- C2: each of `mo_index`, `alpha_index`, `beta_index` is injective on the
positions `i ≥ 0`, and for every `n` the alpha and beta indices of the
positions `0 ≤ i < n` are exactly the integers `1, ..., 2n`, none of them
produced twice. -/
theorem index_enumeration (n : Nat) :
    Set.InjOn mo_index {i | 0 ≤ i} ∧ Set.InjOn alpha_index {i | 0 ≤ i} ∧
    Set.InjOn beta_index {i | 0 ≤ i} ∧
    (∀ v : Int, v ∈ spinIndices n ↔ 1 ≤ v ∧ v ≤ 2 * (n : Int)) ∧
    (spinIndices n).Nodup ∧ (spinIndices n).length = 2 * n := by
  refine ⟨?_, ?_, ?_, mem_spinIndices n, ?_, ?_⟩
  · intro i _ j _ h; simp only [mo_index] at h; omega
  · intro i _ j _ h; simp only [alpha_index] at h; omega
  · intro i _ j _ h; simp only [beta_index] at h; omega
  · exact (spinIndices_sorted n).imp (fun h => ne_of_lt h)
  · induction n with
    | zero => rfl
    | succ n ih => rw [spinIndices_succ, List.length_append, ih]; simp; omega

/-- C3: `write_oei_to_disk` appends to the stream exactly the records
`(H(h,m,n), map(m + off h), map(n + off h), 0, 0)` of the positions
`(h, m, n)` with `h < nirrep`, `n ≤ m < d(h)` and `|H(h,m,n)| > tau`, with
`h` ascending, then `m`, then `n`, and nothing else; in the scenario with
dimensions `[2, 1]`, the spatial mapping and a diagonal value at row 1 of
irrep 0 the single record carries the indices `2 2 0 0`. -/
theorem write_oei_to_disk_records (intdump : FILE) (moH : SharedMatrix) (tau : ℚ)
    (map : orb_indx) :
    write_oei_to_disk intdump moH tau map = intdump ++ oei_records moH tau map ∧
    (∀ h m n, (h, m, n) ∈ lowerTriangle moH ↔ h < moH.nirrep ∧ n ≤ m ∧ m < moH.rowdim h) ∧
    (lowerTriangle moH).Pairwise lexLt3 ∧
    write_oei_to_disk [] scenarioH (1 / 10 ^ 10) mo_index =
      [⟨29, 123456789012345678901 / 10 ^ 20, [2, 2, 0, 0]⟩] := by
  refine ⟨write_oei_to_disk_eq _ _ _ _, mem_lowerTriangle moH, triples_pairwise _ _ _, ?_⟩
  rw [write_oei_to_disk_eq]
  have ht : lowerTriangle scenarioH = [(0, 0, 0), (0, 1, 0), (0, 1, 1), (1, 0, 0)] := by decide
  have ho : irrepOffset scenarioH.rowdim 0 = 0 := by decide
  have g1 : scenarioH.get 0 0 0 = 0 := by simp [scenarioH]
  have g2 : scenarioH.get 0 1 0 = 0 := by simp [scenarioH]
  have g3 : scenarioH.get 0 1 1 = 123456789012345678901 / 10 ^ 20 := by simp [scenarioH]
  have g4 : scenarioH.get 1 0 0 = 0 := by simp [scenarioH]
  have hv : |(123456789012345678901 / 10 ^ 20 : ℚ)| > 1 / 10 ^ 10 := by
    rw [abs_of_pos (by norm_num)]; norm_num
  have hz : ¬ |(0 : ℚ)| > 1 / 10 ^ 10 := by norm_num
  simp only [oei_records, ht, List.filter, oei_record, g1, g2, g3, g4, hv, hz, decide_True,
    decide_False, List.map, ho, mo_index]
  rfl

/-- C4, as stated, fails: with cutoff 0 the matrix `sparseH` (dimensions
`[2, 1]`, four lower-triangle positions, three of them holding 0) yields one
record, not four. -/
theorem oei_zero_cutoff_count_counterexample :
    (write_oei_to_disk [] sparseH 0 mo_index).length = 1 ∧ triangleCount sparseH = 4 ∧
      (write_oei_to_disk [] sparseH 0 mo_index).length ≠ triangleCount sparseH := by
  decide

/-- C4, amended: with cutoff 0 the number of records `write_oei_to_disk`
appends equals the number of non-zero lower-triangle elements; there are
`sum over h of d(h)*(d(h)+1)/2` lower-triangle positions, and the number of
records equals that sum exactly when every lower-triangle element is
non-zero. -/
theorem write_oei_to_disk_count_zero_cutoff (intdump : FILE) (moH : SharedMatrix)
    (map : orb_indx) :
    (write_oei_to_disk intdump moH 0 map).length =
      intdump.length + (lowerTriangle moH).countP (fun t => moH.get t.1 t.2.1 t.2.2 ≠ 0) ∧
    (lowerTriangle moH).length = triangleCount moH ∧
    ((write_oei_to_disk intdump moH 0 map).length = intdump.length + triangleCount moH ↔
      ∀ h m n, h < moH.nirrep → n ≤ m → m < moH.rowdim h → moH.get h m n ≠ 0) := by
  have hlen : (write_oei_to_disk intdump moH 0 map).length =
      intdump.length + (lowerTriangle moH).countP (fun t => moH.get t.1 t.2.1 t.2.2 ≠ 0) := by
    rw [write_oei_to_disk_eq, List.length_append, oei_records, List.length_map,
      List.countP_eq_length_filter]
    congr 2
    apply List.filter_congr
    intro t _
    simp
  refine ⟨hlen, length_lowerTriangle moH, ?_⟩
  rw [hlen, ← length_lowerTriangle, Nat.add_left_cancel_iff, List.countP_eq_length]
  constructor
  · intro hall h m n hh hn hm
    have := hall (h, m, n) ((mem_lowerTriangle moH h m n).2 ⟨hh, hn, hm⟩)
    simpa using this
  · rintro hall ⟨h, m, n⟩ ht
    obtain ⟨hh, hn, hm⟩ := (mem_lowerTriangle moH h m n).1 ht
    simpa using hall h m n hh hn hm

/-- Witness for the amended C4: the matrix `denseH` has no zero element, so
with cutoff 0 all four lower-triangle elements are written. -/
theorem write_oei_to_disk_count_zero_cutoff_witness :
    (write_oei_to_disk [] denseH 0 mo_index).length = 0 + triangleCount denseH ∧
      triangleCount denseH = 4 :=
  ⟨((write_oei_to_disk_count_zero_cutoff [] denseH mo_index).2.2).2 (by
      intro h m n _ _ _
      simp only [denseH]
      positivity), by decide⟩

/-- C5: `write_tei_to_disk` appends to the stream exactly the records
`(K[h][pq][rs], map1 p, map1 q, map2 r, map2 s)`, with `(p, q) = roworb[h][pq]`
and `(r, s) = colorb[h][rs]`, of the positions `(h, pq, rs)` with
`h < nirrep`, `pq < rowtot h`, `rs < coltot h` and `|K[h][pq][rs]| > tau`,
with `h` ascending, then `pq`, then `rs`; `map1` is applied to the row pair
only and `map2` to the column pair only. -/
theorem write_tei_to_disk_records (intdump : FILE) (nirrep : Nat) (K : dpdbuf4) (tau : ℚ)
    (map1 map2 : orb_indx) :
    write_tei_to_disk intdump nirrep K tau map1 map2 =
      intdump ++ ((teiTriples nirrep K).filter
        (fun t => |K.matrix t.1 t.2.1 t.2.2| > tau)).map (fun t =>
          (⟨28, K.matrix t.1 t.2.1 t.2.2,
            [map1 (K.params.roworb t.1 t.2.1).1, map1 (K.params.roworb t.1 t.2.1).2,
             map2 (K.params.colorb t.1 t.2.2).1, map2 (K.params.colorb t.1 t.2.2).2]⟩ :
            Record)) ∧
    (∀ h pq rs, (h, pq, rs) ∈ teiTriples nirrep K ↔
      h < nirrep ∧ pq < K.params.rowtot h ∧ rs < K.params.coltot h) ∧
    (teiTriples nirrep K).Pairwise lexLt3 := by
  refine ⟨write_tei_to_disk_eq _ _ _ _ _ _, fun h pq rs => mem_triples _ _ _ h pq rs,
    triples_pairwise _ _ _⟩

/-! ## Uniqueness of the index quadruples of the two-electron writer -/

theorem index_map_injective (map : orb_indx)
    (hmap : map = mo_index ∨ map = alpha_index ∨ map = beta_index) :
    Function.Injective map := by
  rcases hmap with rfl | rfl | rfl
  · intro a b h; simp only [mo_index] at h; omega
  · intro a b h; simp only [alpha_index] at h; omega
  · intro a b h; simp only [beta_index] at h; omega

theorem pairs_inj (N : Nat) (tot : Nat → Nat) (orb : Nat → Nat → Int × Int)
    (hnd : ((List.range N).flatMap (fun h => (List.range (tot h)).map (orb h))).Nodup)
    (h pq h' pq' : Nat) (hh : h < N) (hpq : pq < tot h) (hh' : h' < N) (hpq' : pq' < tot h')
    (heq : orb h pq = orb h' pq') : h = h' ∧ pq = pq' := by
  have hl : (List.range N).flatMap (fun h => (List.range (tot h)).map (orb h)) =
      ((List.range N).flatMap (fun h => (List.range (tot h)).map (fun pq => (h, pq)))).map
        (fun x => orb x.1 x.2) := by
    simp [List.map_flatMap, List.map_map, Function.comp_def]
  rw [hl] at hnd
  have hmem : ∀ a b, a < N → b < tot a →
      (a, b) ∈ (List.range N).flatMap (fun h => (List.range (tot h)).map (fun pq => (h, pq))) := by
    intro a b ha hb
    simp only [List.mem_flatMap, List.mem_map, List.mem_range, Prod.mk.injEq]
    exact ⟨a, ha, b, hb, rfl, rfl⟩
  have := List.inj_on_of_nodup_map hnd (hmem h pq hh hpq) (hmem h' pq' hh' hpq') heq
  simpa using this

/-- C6: when the row pair tables list every orbital pair at most once over
all irreps, the column pair tables do likewise, and each of `map1`, `map2` is
one of `mo_index`, `alpha_index`, `beta_index`, the index quadruples of the
records written by one call of `write_tei_to_disk` are pairwise different. -/
theorem tei_idx_nodup (nirrep : Nat) (K : dpdbuf4) (tau : ℚ) (map1 map2 : orb_indx)
    (hrow : (rowPairs nirrep K).Nodup) (hcol : (colPairs nirrep K).Nodup)
    (hmap1 : map1 = mo_index ∨ map1 = alpha_index ∨ map1 = beta_index)
    (hmap2 : map2 = mo_index ∨ map2 = alpha_index ∨ map2 = beta_index) :
    ((write_tei_to_disk [] nirrep K tau map1 map2).map Record.idx).Nodup := by
  have i1 := index_map_injective map1 hmap1
  have i2 := index_map_injective map2 hmap2
  rw [write_tei_to_disk_eq, List.nil_append, tei_records, List.map_map]
  refine List.Nodup.map_on ?_ (List.Nodup.filter _ ?_)
  · rintro ⟨h, pq, rs⟩ ht ⟨h', pq', rs'⟩ ht' heq
    rw [List.mem_filter, teiTriples, mem_triples] at ht ht'
    obtain ⟨⟨hh, hpq, hrs⟩, -⟩ := ht
    obtain ⟨⟨hh', hpq', hrs'⟩, -⟩ := ht'
    simp only [Function.comp_apply, tei_record, List.cons.injEq, and_true] at heq
    obtain ⟨e1, e2, e3, e4⟩ := heq
    have hr : K.params.roworb h pq = K.params.roworb h' pq' := Prod.ext (i1 e1) (i1 e2)
    have hc : K.params.colorb h rs = K.params.colorb h' rs' := Prod.ext (i2 e3) (i2 e4)
    obtain ⟨rfl, rfl⟩ := pairs_inj nirrep K.params.rowtot K.params.roworb hrow h pq h' pq'
      hh hpq hh' hpq' hr
    obtain ⟨-, rfl⟩ := pairs_inj nirrep K.params.coltot K.params.colorb hcol h rs h rs'
      hh hrs hh' hrs' hc
    rfl
  · exact (triples_pairwise _ _ _).imp (fun {a b} hlt heq => by
      subst heq
      rcases hlt with h | ⟨-, h | ⟨-, h⟩⟩ <;> exact absurd h (lt_irrefl _))

/-- Witness for C6: the same-spin block `sameSpinK` with the spatial
mapping on both sides. -/
theorem tei_idx_nodup_witness :
    ((write_tei_to_disk [] 1 sameSpinK 0 mo_index mo_index).map Record.idx).Nodup :=
  tei_idx_nodup 1 sameSpinK 0 mo_index mo_index (by decide) (by decide) (Or.inl rfl) (Or.inl rfl)

/-- C9 at the failing input: with frozen-core counts `[1, 0]` and active
counts `[1, 1]` the record of the pair formed by the active orbital of
irrep 0 and the active orbital of irrep 1 (value `P(1,2) = 6`) carries the
indices `1 1`, not `map(0) map(1) = 1 2`; the active orbital of irrep 1 gets
index 1 there and index 2 in its diagonal record. -/
theorem prop_index_frozen_core :
    (write_oei_prop_to_disk [] frozenCoreWfn frozenCoreWfn.nmopi propP 0 mo_index 0).1 =
      [⟨29, 5, [1, 1]⟩, ⟨29, 6, [1, 1]⟩, ⟨29, 7, [2, 2]⟩] ∧
    propP 1 2 = 6 ∧
    (⟨29, 6, [mo_index 0, mo_index 1]⟩ : Record) ∉
      (write_oei_prop_to_disk [] frozenCoreWfn frozenCoreWfn.nmopi propP 0 mo_index 0).1 := by
  decide

/-! ## The eigenvalue writer -/

theorem forLoop_count_emit (lo a : Nat) (r : Nat → Nat → Record) (st : Nat × FILE) :
    forLoop lo (lo + a) (fun i (st : Nat × FILE) => (st.1 + 1, fprintf st.2 (r i st.1))) st =
      (st.1 + a, st.2 ++ (List.range a).map (fun j => r (lo + j) (st.1 + j))) := by
  rw [forLoop_shift]
  induction a with
  | zero => simp [forLoop]
  | succ a ih => rw [forLoop_succ, ih]; simp [List.range_succ, fprintf, Nat.add_assoc]

theorem irrepOffset_succ (d : Nat → Nat) (h : Nat) :
    irrepOffset d (h + 1) = irrepOffset d h + d h := by
  simp [irrepOffset, List.range_succ]

theorem irrepOffset_block_le (d : Nat → Nat) (n h : Nat) (hh : h < n) :
    irrepOffset d h + d h ≤ irrepOffset d n := by
  induction n with
  | zero => omega
  | succ n ih =>
    rw [irrepOffset_succ]
    rcases Nat.lt_succ_iff_lt_or_eq.1 hh with h1 | rfl
    · have := ih h1; omega
    · omega

theorem length_blocks {α : Type} (n : Nat) (a : Nat → Nat) (g : Nat → Nat → α) :
    ((List.range n).flatMap (fun h => (List.range (a h)).map (g h))).length = irrepOffset a n := by
  induction n with
  | zero => rfl
  | succ n ih => simp [List.range_succ, ih, irrepOffset_succ]

theorem getElem?_blocks {α : Type} (n : Nat) (a : Nat → Nat) (g : Nat → Nat → α) (h j : Nat)
    (hh : h < n) (hj : j < a h) :
    ((List.range n).flatMap (fun h => (List.range (a h)).map (g h)))[irrepOffset a h + j]? =
      some (g h j) := by
  induction n with
  | zero => omega
  | succ n ih =>
    rw [List.range_succ, List.flatMap_append, List.flatMap_singleton]
    rcases Nat.lt_succ_iff_lt_or_eq.1 hh with h1 | rfl
    · rw [List.getElem?_append_left, ih h1]
      rw [length_blocks]
      have := irrepOffset_block_le a n h h1
      omega
    · rw [List.getElem?_append_right (by rw [length_blocks]; omega), length_blocks]
      simp [hj]

theorem map_idx_blocks (n : Nat) (a : Nat → Nat) (v : Nat → Nat → ℚ) (map : orb_indx) :
    (((List.range n).flatMap (fun h => (List.range (a h)).map (fun j =>
      (⟨28, v h j, [map ((irrepOffset a h + j : Nat) : Int), 0, 0, 0]⟩ : Record)))).map
        Record.idx) =
      (List.range (irrepOffset a n)).map (fun (k : Nat) => [map (k : Int), 0, 0, 0]) := by
  induction n with
  | zero => rfl
  | succ n ih =>
    rw [List.range_succ, List.flatMap_append, List.map_append, ih, irrepOffset_succ,
      List.range_add, List.map_append]
    simp [Function.comp_def]

theorem write_eigv_to_disk_eq (intdump : FILE) (frzcpi active_mopi : Dimension)
    (eigv : Nat → Nat → ℚ) (map : orb_indx) :
    write_eigv_to_disk intdump frzcpi active_mopi eigv map =
      intdump ++ eigv_records frzcpi active_mopi eigv map := by
  have inner : ∀ (h : Nat) (st : Nat × FILE),
      forLoop (frzcpi.get h) (frzcpi.get h + active_mopi.get h) (fun i (st : Nat × FILE) =>
        (st.1 + 1, fprintf st.2 ⟨28, eigv h i, [map (st.1 : Int), 0, 0, 0]⟩)) st =
      (st.1 + active_mopi.get h, st.2 ++ (List.range (active_mopi.get h)).map (fun j =>
        (⟨28, eigv h (frzcpi.get h + j), [map ((st.1 + j : Nat) : Int), 0, 0, 0]⟩ : Record))) :=
    fun h st => forLoop_count_emit _ _ (fun i k => ⟨28, eigv h i, [map (k : Int), 0, 0, 0]⟩) st
  unfold write_eigv_to_disk eigv_records
  simp only [inner]
  rw [forLoop_offset_emit active_mopi.n active_mopi.get
    (fun offset h => (List.range (active_mopi.get h)).map (fun j =>
      (⟨28, eigv h (frzcpi.get h + j), [map ((offset + j : Nat) : Int), 0, 0, 0]⟩ : Record)))]

/-- C8: `write_eigv_to_disk` appends exactly `N = sum of active(h)` records,
whatever the energies; the record at position `k = (sum of active(h') over
h' < h) + j`, `j < active(h)`, is `(eigv(h, frzc(h)+j), map(k), 0, 0, 0)`, so
the records carry the indices `map(0), ..., map(N-1)` in this order. -/
theorem write_eigv_to_disk_records (intdump : FILE) (frzcpi active_mopi : Dimension)
    (eigv : Nat → Nat → ℚ) (map : orb_indx) :
    write_eigv_to_disk intdump frzcpi active_mopi eigv map =
      intdump ++ eigv_records frzcpi active_mopi eigv map ∧
    (eigv_records frzcpi active_mopi eigv map).length =
      irrepOffset active_mopi.get active_mopi.n ∧
    (∀ h j, h < active_mopi.n → j < active_mopi.get h →
      (eigv_records frzcpi active_mopi eigv map)[irrepOffset active_mopi.get h + j]? =
        some ⟨28, eigv h (frzcpi.get h + j),
          [map ((irrepOffset active_mopi.get h + j : Nat) : Int), 0, 0, 0]⟩) ∧
    (eigv_records frzcpi active_mopi eigv map).map Record.idx =
      (List.range (irrepOffset active_mopi.get active_mopi.n)).map
        (fun (k : Nat) => [map (k : Int), 0, 0, 0]) := by
  refine ⟨write_eigv_to_disk_eq _ _ _ _ _, length_blocks _ _ _, ?_, ?_⟩
  · intro h j hh hj
    exact getElem?_blocks active_mopi.n active_mopi.get _ h j hh hj
  · exact map_idx_blocks active_mopi.n active_mopi.get (fun h j => eigv h (frzcpi.get h + j)) map

/-! ## The property writer: frozen-core contribution -/

theorem forLoop_sum (n : Nat) (g : Nat → ℚ) (c0 : ℚ) :
    forLoop 0 n (fun m c => c + g m) c0 = c0 + ((List.range n).map g).sum := by
  induction n with
  | zero => simp [forLoop]
  | succ n ih => rw [forLoop_succ, ih]; simp [List.range_succ, add_assoc]

theorem forLoop_offset_sum (N : Nat) (d : Nat → Nat) (G : Nat → Nat → ℚ) (c0 : ℚ) :
    forLoop 0 N (fun h (st : Nat × ℚ) => (st.1 + d h, st.2 + G st.1 h)) (0, c0) =
      (irrepOffset d N, c0 + ((List.range N).map (fun h => G (irrepOffset d h) h)).sum) := by
  induction N with
  | zero => simp [forLoop, irrepOffset]
  | succ N ih => rw [forLoop_succ, ih]; simp [irrepOffset, List.range_succ, add_assoc]

theorem frz_contrib_eq (intdump : FILE) (wfn : Wavefunction) (dim : Nat → Nat)
    (P : Nat → Nat → ℚ) (tau : ℚ) (map : orb_indx) (frz0 : ℚ) :
    (write_oei_prop_to_disk intdump wfn dim P tau map frz0).2 =
      2 * frozenCoreSum wfn.nirrep dim wfn.frzcpi P := by
  simp only [write_oei_prop_to_disk, forLoop_sum]
  rw [forLoop_offset_sum wfn.nirrep dim
    (fun ioff1 h => ((List.range (wfn.frzcpi h)).map (fun m => 2 * P (m + ioff1) (m + ioff1))).sum)]
  simp only [frozenCoreSum, zero_add, List.sum_map_mul_left, Nat.add_comm]

/-- C10: the frozen-core contribution returned by `write_oei_prop_to_disk`
is `2 * (sum over h and m < frzc(h) of P(off h + m, off h + m))`, whatever
the stream, the cutoff, the index mapping and the value found in
`*frz_contrib` on entry; it is 0 when no orbital is frozen. -/
theorem write_oei_prop_to_disk_frozen_core (wfn : Wavefunction) (dim : Nat → Nat)
    (P : Nat → Nat → ℚ) :
    (∀ (intdump : FILE) (tau : ℚ) (map : orb_indx) (frz0 : ℚ),
      (write_oei_prop_to_disk intdump wfn dim P tau map frz0).2 =
        2 * frozenCoreSum wfn.nirrep dim wfn.frzcpi P) ∧
    ((∀ h, h < wfn.nirrep → wfn.frzcpi h = 0) →
      ∀ (intdump : FILE) (tau : ℚ) (map : orb_indx) (frz0 : ℚ),
        (write_oei_prop_to_disk intdump wfn dim P tau map frz0).2 = 0) := by
  refine ⟨fun intdump tau map frz0 => frz_contrib_eq intdump wfn dim P tau map frz0, ?_⟩
  intro hz intdump tau map frz0
  rw [frz_contrib_eq, frozenCoreSum]
  have : ∀ h ∈ List.range wfn.nirrep, ((List.range (wfn.frzcpi h)).map (fun m =>
      P (irrepOffset dim h + m) (irrepOffset dim h + m))).sum = 0 := by
    intro h hh
    rw [hz h (List.mem_range.1 hh)]
    rfl
  rw [List.map_congr_left this]
  simp

/-- Witness for C10: with frozen-core counts `[1, 0]` the contribution is
`2 * P(0,0) = 6`; without frozen orbitals it is 0. -/
theorem write_oei_prop_to_disk_frozen_core_witness :
    (write_oei_prop_to_disk [] frozenCoreWfn frozenCoreWfn.nmopi propP 0 mo_index 1).2 =
      2 * frozenCoreSum 2 frozenCoreWfn.nmopi frozenCoreWfn.frzcpi propP ∧
    2 * frozenCoreSum 2 frozenCoreWfn.nmopi frozenCoreWfn.frzcpi propP = 6 ∧
    (write_oei_prop_to_disk [] noFrozenWfn noFrozenWfn.nmopi propP 0 mo_index 1).2 = 0 :=
  ⟨(write_oei_prop_to_disk_frozen_core frozenCoreWfn frozenCoreWfn.nmopi propP).1 [] 0 mo_index 1,
    by norm_num [frozenCoreSum, frozenCoreWfn, propP, irrepOffset, List.range_succ],
    (write_oei_prop_to_disk_frozen_core noFrozenWfn noFrozenWfn.nmopi propP).2
      (fun _ _ => rfl) [] 0 mo_index 1⟩

/-! ## The dump orchestrator -/

theorem forLoop_append {α : Type} (n : Nat) (g : Nat → List α) (t0 : List α) :
    forLoop 0 n (fun i t => t ++ g i) t0 = t0 ++ (List.range n).flatMap g := by
  induction n with
  | zero => simp [forLoop]
  | succ n ih => rw [forLoop_succ, ih]; simp [List.range_succ]

theorem flatMap_const_replicate {α : Type} (a k : Nat) (x : α) :
    (List.range a).flatMap (fun _ => List.replicate k x) = List.replicate (k * a) x := by
  induction a with
  | zero => simp
  | succ a ih => simp [List.range_succ, ih, Nat.mul_succ]

theorem fcidump_header_eq (nbf : Nat) (nelectron ms2 : Int) (restricted : Bool)
    (frzcpi active_mopi : Dimension) :
    fcidump_header nbf nelectron ms2 restricted frzcpi active_mopi =
      ["&FCI\n", "NORB=" ++ toString nbf ++ ",\n", "NELEC=" ++ toString nelectron ++ ",\n",
        "MS2=" ++ toString ms2 ++ ",\n",
        if restricted then "UHF=.FALSE.,\n" else "UHF=.TRUE.,\n", "ORBSYM="]
      ++ orbsym_labels restricted active_mopi.n active_mopi.get ++ ["\n&END\n"] := by
  have inner : ∀ (h : Nat) (t : List String),
      forLoop (frzcpi.get h) (frzcpi.get h + active_mopi.get h) (fun n t =>
        let t := t ++ [toString (h + 1) ++ ","]
        if !restricted then t ++ [toString (h + 1) ++ ","] else t) t =
      t ++ List.replicate (if restricted then active_mopi.get h else 2 * active_mopi.get h)
        (toString (h + 1) ++ ",") := by
    intro h t
    rw [forLoop_shift]
    cases restricted
    · have := forLoop_append (active_mopi.get h)
        (fun _ => List.replicate 2 (toString (h + 1) ++ ",")) t
      rw [flatMap_const_replicate] at this
      simpa [List.replicate] using this
    · have := forLoop_append (active_mopi.get h)
        (fun _ => List.replicate 1 (toString (h + 1) ++ ",")) t
      rw [flatMap_const_replicate] at this
      simpa [List.replicate] using this
  unfold fcidump_header orbsym_labels
  simp only [inner]
  rw [forLoop_append]
  cases restricted <;> simp

theorem length_orbsym_labels (restricted : Bool) (nirrep : Nat) (active : Nat → Nat) :
    (orbsym_labels restricted nirrep active).length =
      if restricted then irrepOffset active nirrep else 2 * irrepOffset active nirrep := by
  induction nirrep with
  | zero => cases restricted <;> rfl
  | succ n ih =>
    have hs : orbsym_labels restricted (n + 1) active = orbsym_labels restricted n active ++
        List.replicate (if restricted then active n else 2 * active n) (toString (n + 1) ++ ",") := by
      simp [orbsym_labels, List.range_succ]
    rw [hs, List.length_append, ih, irrepOffset_succ, List.length_replicate]
    cases restricted
    · simp; omega
    · simp

theorem dump_property_files (wfn : Wavefunction) (ext : Collaborators) (tau : ℚ) (fname : String)
    (P : Nat → Nat → ℚ) (nuclear : ℚ) (st : Status × List DumpFile × ℚ) :
    ∃ l, (dump_property wfn ext tau fname P nuclear st).2.1 = st.2.1 ++ l := by
  unfold dump_property
  split
  · split
    · exact ⟨_, rfl⟩
    · exact ⟨[], by simp⟩
  · exact ⟨[], by simp⟩

theorem forLoop_three {σ : Type} (body : Nat → σ → σ) (s : σ) :
    forLoop 0 3 body s = body 2 (body 1 (body 0 s)) := by
  simp [forLoop, List.range']

theorem dump_property_head (wfn : Wavefunction) (ext : Collaborators) (tau : ℚ) (fname : String)
    (P : Nat → Nat → ℚ) (nuclear : ℚ) (st : Status × List DumpFile × ℚ) (f : DumpFile)
    (hst : st.2.1.head? = some f) :
    (dump_property wfn ext tau fname P nuclear st).2.1.head? = some f := by
  obtain ⟨l, hl⟩ := dump_property_files wfn ext tau fname P nuclear st
  rw [hl, List.head?_append, hst]
  rfl

theorem fcidump_properties_head (wfn : SCFWavefunction) (options : Options)
    (ext : Collaborators) (main : DumpFile) :
    (fcidump_properties wfn options ext main).files.head? = some main := by
  simp only [fcidump_properties, forLoop_three]
  exact dump_property_head _ _ _ _ _ _ _ _ (dump_property_head _ _ _ _ _ _ _ _
    (dump_property_head _ _ _ _ _ _ _ _ (dump_property_head _ _ _ _ _ _ _ _ rfl)))

theorem fcidump_main_file (wfn : SCFWavefunction) (options : Options) (ext : Collaborators)
    (href : options.REFERENCE ≠ "ROHF") (hopen : ext.fopen_ok options.INTEGRALS_FILE = true) :
    ((fcidump (some wfn) options ext).files.head?).map (fun f => (f.name, f.text)) =
      some (options.INTEGRALS_FILE,
        fcidump_header
          (if wfn.same_a_b_orbs then wfn.active_mopi.sum else wfn.active_mopi.sum * 2)
          wfn.nelectron (wfn.nalpha - wfn.nbeta) wfn.same_a_b_orbs ⟨wfn.nirrep, wfn.frzcpi⟩
          wfn.active_mopi) := by
  simp only [fcidump, href, hopen, if_true, if_false]
  by_cases hr : wfn.same_a_b_orbs = true
  · by_cases hd : options.DIPOLE_INTEGRALS = true
    · simp only [hr, hd, if_true, fcidump_properties_head]
      rfl
    · simp [hr, hd]
  · simp [hr]

/-- C11: when the header is written (a wavefunction is present, the reference
is not ROHF and the output file opens), the file starts with the header whose
`NORB` line holds the sum of `active(h)` for a restricted reference and twice
that sum for an unrestricted one, and whose `ORBSYM` line lists in irrep order
the label `h+1`, each followed by a comma, once (restricted) or twice
(unrestricted) per active orbital of irrep `h`; the number of labels equals
`NORB`.  Restricted active dimensions `[2, 1]` give `NORB=3,` and
`ORBSYM=1,1,2,`; unrestricted active dimension `[2]` gives `NORB=4,`,
`UHF=.TRUE.,` and `ORBSYM=1,1,1,1,`. -/
theorem fcidump_header_norb_orbsym (wfn : SCFWavefunction) (options : Options)
    (ext : Collaborators) (href : options.REFERENCE ≠ "ROHF")
    (hopen : ext.fopen_ok options.INTEGRALS_FILE = true) :
    ((fcidump (some wfn) options ext).files.head?).map (fun f => (f.name, f.text)) =
      some (options.INTEGRALS_FILE,
        ["&FCI\n",
         "NORB=" ++ toString (if wfn.same_a_b_orbs
            then irrepOffset (fun h => wfn.nmopi h - wfn.frzcpi h - wfn.frzvpi h) wfn.nirrep
            else 2 * irrepOffset (fun h => wfn.nmopi h - wfn.frzcpi h - wfn.frzvpi h) wfn.nirrep)
            ++ ",\n",
         "NELEC=" ++ toString wfn.nelectron ++ ",\n",
         "MS2=" ++ toString (wfn.nalpha - wfn.nbeta) ++ ",\n",
         if wfn.same_a_b_orbs then "UHF=.FALSE.,\n" else "UHF=.TRUE.,\n", "ORBSYM="]
        ++ orbsym_labels wfn.same_a_b_orbs wfn.nirrep
            (fun h => wfn.nmopi h - wfn.frzcpi h - wfn.frzvpi h)
        ++ ["\n&END\n"]) ∧
    (orbsym_labels wfn.same_a_b_orbs wfn.nirrep
        (fun h => wfn.nmopi h - wfn.frzcpi h - wfn.frzvpi h)).length =
      (if wfn.same_a_b_orbs
        then irrepOffset (fun h => wfn.nmopi h - wfn.frzcpi h - wfn.frzvpi h) wfn.nirrep
        else 2 * irrepOffset (fun h => wfn.nmopi h - wfn.frzcpi h - wfn.frzvpi h) wfn.nirrep) ∧
    (fcidump (some rhfWfn) (exampleOptions "RHF" false) exampleExt).files.map DumpFile.text =
      [["&FCI\n", "NORB=3,\n", "NELEC=2,\n", "MS2=0,\n", "UHF=.FALSE.,\n",
        "ORBSYM=", "1,", "1,", "2,", "\n&END\n"]] ∧
    (fcidump (some uhfWfn) (exampleOptions "UHF" false) exampleExt).files.map DumpFile.text =
      [["&FCI\n", "NORB=4,\n", "NELEC=1,\n", "MS2=1,\n", "UHF=.TRUE.,\n",
        "ORBSYM=", "1,", "1,", "1,", "1,", "\n&END\n"]] := by
  refine ⟨?_, length_orbsym_labels _ _ _, by decide, by decide⟩
  rw [fcidump_main_file wfn options ext href hopen, fcidump_header_eq]
  simp only [SCFWavefunction.active_mopi, Dimension.sum, irrepOffset, Nat.mul_comm]

/-- Witness for C11: the restricted example run. -/
theorem fcidump_header_norb_orbsym_witness :
    (exampleOptions "RHF" false).REFERENCE ≠ "ROHF" ∧
    exampleExt.fopen_ok (exampleOptions "RHF" false).INTEGRALS_FILE = true ∧
    (orbsym_labels rhfWfn.same_a_b_orbs rhfWfn.nirrep
        (fun h => rhfWfn.nmopi h - rhfWfn.frzcpi h - rhfWfn.frzvpi h)).length =
      (if rhfWfn.same_a_b_orbs
        then irrepOffset (fun h => rhfWfn.nmopi h - rhfWfn.frzcpi h - rhfWfn.frzvpi h) rhfWfn.nirrep
        else 2 * irrepOffset (fun h => rhfWfn.nmopi h - rhfWfn.frzcpi h - rhfWfn.frzvpi h)
          rhfWfn.nirrep) :=
  ⟨by decide, rfl,
    (fcidump_header_norb_orbsym rhfWfn (exampleOptions "RHF" false) exampleExt (by decide) rfl).2.1⟩

/-- C13: with the option `REFERENCE` equal to `"ROHF"`, `fcidump` throws for
every wavefunction, every other option setting and every behaviour of the
collaborators, and it does so before any file is opened: no file exists and
nothing has been written.  With a wavefunction present the error is
"FCIDUMP not implemented for ROHF references.". -/
theorem fcidump_rohf_fails (wfn : Option SCFWavefunction) (options : Options)
    (ext : Collaborators) (href : options.REFERENCE = "ROHF") :
    (fcidump wfn options ext).files = [] ∧
    (∃ what, (fcidump wfn options ext).status = Status.threw what) ∧
    (∀ w, wfn = some w → fcidump wfn options ext =
      ⟨Status.threw "FCIDUMP not implemented for ROHF references.", []⟩) := by
  cases wfn with
  | none => exact ⟨rfl, ⟨_, rfl⟩, fun w hw => by cases hw⟩
  | some w =>
    have h : fcidump (some w) options ext =
        ⟨Status.threw "FCIDUMP not implemented for ROHF references.", []⟩ := by
      simp [fcidump, href]
    exact ⟨by rw [h], ⟨_, by rw [h]⟩, fun w' hw => by cases hw; exact h⟩

/-- Witness for C13: the restricted example wavefunction with
`REFERENCE = "ROHF"`, dipole dump requested. -/
theorem fcidump_rohf_fails_witness :
    (exampleOptions "ROHF" true).REFERENCE = "ROHF" ∧
    fcidump (some rhfWfn) (exampleOptions "ROHF" true) exampleExt =
      ⟨Status.threw "FCIDUMP not implemented for ROHF references.", []⟩ :=
  ⟨rfl, (fcidump_rohf_fails (some rhfWfn) (exampleOptions "ROHF" true) exampleExt rfl).2.2
    rhfWfn rfl⟩

theorem write_tei_to_disk_append (intdump : FILE) (nirrep : Nat) (K : dpdbuf4) (tau : ℚ)
    (map1 map2 : orb_indx) :
    write_tei_to_disk intdump nirrep K tau map1 map2 =
      intdump ++ write_tei_to_disk [] nirrep K tau map1 map2 := by
  rw [write_tei_to_disk_eq, write_tei_to_disk_eq [], List.nil_append]

theorem write_oei_to_disk_append (intdump : FILE) (moH : SharedMatrix) (tau : ℚ)
    (map : orb_indx) :
    write_oei_to_disk intdump moH tau map = intdump ++ write_oei_to_disk [] moH tau map := by
  rw [write_oei_to_disk_eq, write_oei_to_disk_eq [], List.nil_append]

theorem write_eigv_to_disk_append (intdump : FILE) (frzcpi active_mopi : Dimension)
    (eigv : Nat → Nat → ℚ) (map : orb_indx) :
    write_eigv_to_disk intdump frzcpi active_mopi eigv map =
      intdump ++ write_eigv_to_disk [] frzcpi active_mopi eigv map := by
  rw [write_eigv_to_disk_eq, write_eigv_to_disk_eq [], List.nil_append]

theorem tei_idx_of_mem (nirrep : Nat) (K : dpdbuf4) (tau : ℚ) (map1 map2 : orb_indx)
    (r : Record) (hr : r ∈ write_tei_to_disk [] nirrep K tau map1 map2) :
    ∃ p q r' s : Int, r.idx = [map1 p, map1 q, map2 r', map2 s] := by
  rw [write_tei_to_disk_eq, List.nil_append, tei_records, List.mem_map] at hr
  obtain ⟨t, -, rfl⟩ := hr
  exact ⟨_, _, _, _, rfl⟩

theorem oei_idx_of_mem (moH : SharedMatrix) (tau : ℚ) (map : orb_indx) (r : Record)
    (hr : r ∈ write_oei_to_disk [] moH tau map) :
    ∃ p q : Nat, r.idx = [map (p : Int), map (q : Int), 0, 0] := by
  rw [write_oei_to_disk_eq, List.nil_append, oei_records, List.mem_map] at hr
  obtain ⟨t, -, rfl⟩ := hr
  exact ⟨_, _, rfl⟩

theorem eigv_idx_of_mem (frzcpi active_mopi : Dimension) (eigv : Nat → Nat → ℚ)
    (map : orb_indx) (r : Record) (hr : r ∈ write_eigv_to_disk [] frzcpi active_mopi eigv map) :
    ∃ k : Nat, r.idx = [map (k : Int), 0, 0, 0] := by
  rw [write_eigv_to_disk_eq, List.nil_append, eigv_records] at hr
  simp only [List.mem_flatMap, List.mem_map] at hr
  obtain ⟨h, -, j, -, rfl⟩ := hr
  exact ⟨_, rfl⟩

theorem alpha_index_odd (i : Int) : Odd (alpha_index i) := ⟨i, rfl⟩

theorem beta_index_even (i : Int) : Even (beta_index i) := ⟨i + 1, by unfold beta_index; ring⟩

theorem alpha_index_pos (k : Nat) : 0 < alpha_index (k : Int) := by
  unfold alpha_index; omega

theorem beta_index_pos (k : Nat) : 0 < beta_index (k : Int) := by
  unfold beta_index; omega

theorem fcidump_unrestricted_eq (wfn : SCFWavefunction) (options : Options)
    (ext : Collaborators) :
    fcidump_unrestricted wfn options ext [] =
      write_tei_to_disk [] wfn.nirrep ext.K_AA options.INTS_TOLERANCE alpha_index alpha_index ++
      write_tei_to_disk [] wfn.nirrep ext.K_aa options.INTS_TOLERANCE beta_index beta_index ++
      write_tei_to_disk [] wfn.nirrep ext.K_Aa options.INTS_TOLERANCE alpha_index beta_index ++
      write_oei_to_disk [] (View ext.moH_a_fzc wfn.active_mopi ⟨wfn.nirrep, wfn.frzcpi⟩)
        options.INTS_TOLERANCE alpha_index ++
      write_oei_to_disk [] (View ext.moH_b_fzc wfn.active_mopi ⟨wfn.nirrep, wfn.frzcpi⟩)
        options.INTS_TOLERANCE beta_index ++
      (if options.PRINT_EIGENVALUES then
        write_eigv_to_disk [] ⟨wfn.nirrep, wfn.frzcpi⟩ wfn.active_mopi wfn.epsilon_a alpha_index ++
        write_eigv_to_disk [] ⟨wfn.nirrep, wfn.frzcpi⟩ wfn.active_mopi wfn.epsilon_b beta_index
       else []) ++
      [⟨28, ext.frozen_core_energy + wfn.nuclear_repulsion_energy, [0, 0, 0, 0]⟩] := by
  simp only [fcidump_unrestricted, fprintf]
  rw [write_tei_to_disk_append _ _ ext.K_Aa, write_tei_to_disk_append _ _ ext.K_aa,
    write_oei_to_disk_append _ (View ext.moH_b_fzc _ _),
    write_oei_to_disk_append _ (View ext.moH_a_fzc _ _)]
  cases options.PRINT_EIGENVALUES
  · simp
  · simp only [if_true]
    rw [write_eigv_to_disk_append _ _ _ wfn.epsilon_b, write_eigv_to_disk_append _ _ _ wfn.epsilon_a]
    simp

/-- C12: in the unrestricted path the main file holds, after the header, the
alpha-alpha, beta-beta and alpha-beta two-electron blocks, the alpha and beta
one-electron blocks, the alpha and beta eigenvalues (if requested) and the
core-energy trailer, in this order.  All four indices of an alpha-alpha record
are odd, all four of a beta-beta record are even, an alpha-beta record has
its first two indices odd and its last two even; the alpha one-electron and
eigenvalue records carry odd positive orbital indices (followed by zeros) and
the beta ones even positive orbital indices.  For one irrep with active
dimension 2 the alpha indices are 1, 3 and the beta indices 2, 4. -/
theorem unrestricted_index_parity (wfn : SCFWavefunction) (options : Options)
    (ext : Collaborators) (hu : wfn.same_a_b_orbs = false) (href : options.REFERENCE ≠ "ROHF")
    (hopen : ext.fopen_ok options.INTEGRALS_FILE = true) :
    (fcidump (some wfn) options ext).status = Status.returned ∧
    (fcidump (some wfn) options ext).files.map DumpFile.records =
      [write_tei_to_disk [] wfn.nirrep ext.K_AA options.INTS_TOLERANCE alpha_index alpha_index ++
       write_tei_to_disk [] wfn.nirrep ext.K_aa options.INTS_TOLERANCE beta_index beta_index ++
       write_tei_to_disk [] wfn.nirrep ext.K_Aa options.INTS_TOLERANCE alpha_index beta_index ++
       write_oei_to_disk [] (View ext.moH_a_fzc wfn.active_mopi ⟨wfn.nirrep, wfn.frzcpi⟩)
         options.INTS_TOLERANCE alpha_index ++
       write_oei_to_disk [] (View ext.moH_b_fzc wfn.active_mopi ⟨wfn.nirrep, wfn.frzcpi⟩)
         options.INTS_TOLERANCE beta_index ++
       (if options.PRINT_EIGENVALUES then
         write_eigv_to_disk [] ⟨wfn.nirrep, wfn.frzcpi⟩ wfn.active_mopi wfn.epsilon_a
           alpha_index ++
         write_eigv_to_disk [] ⟨wfn.nirrep, wfn.frzcpi⟩ wfn.active_mopi wfn.epsilon_b
           beta_index
        else []) ++
       [⟨28, ext.frozen_core_energy + wfn.nuclear_repulsion_energy, [0, 0, 0, 0]⟩]] ∧
    (∀ r ∈ write_tei_to_disk [] wfn.nirrep ext.K_AA options.INTS_TOLERANCE alpha_index
        alpha_index,
      ∃ a b c d, r.idx = [a, b, c, d] ∧ Odd a ∧ Odd b ∧ Odd c ∧ Odd d) ∧
    (∀ r ∈ write_tei_to_disk [] wfn.nirrep ext.K_aa options.INTS_TOLERANCE beta_index
        beta_index,
      ∃ a b c d, r.idx = [a, b, c, d] ∧ Even a ∧ Even b ∧ Even c ∧ Even d) ∧
    (∀ r ∈ write_tei_to_disk [] wfn.nirrep ext.K_Aa options.INTS_TOLERANCE alpha_index
        beta_index,
      ∃ a b c d, r.idx = [a, b, c, d] ∧ Odd a ∧ Odd b ∧ Even c ∧ Even d) ∧
    (∀ r ∈ write_oei_to_disk [] (View ext.moH_a_fzc wfn.active_mopi ⟨wfn.nirrep, wfn.frzcpi⟩)
        options.INTS_TOLERANCE alpha_index,
      ∃ p q, r.idx = [p, q, 0, 0] ∧ Odd p ∧ Odd q ∧ 0 < p ∧ 0 < q) ∧
    (∀ r ∈ write_oei_to_disk [] (View ext.moH_b_fzc wfn.active_mopi ⟨wfn.nirrep, wfn.frzcpi⟩)
        options.INTS_TOLERANCE beta_index,
      ∃ p q, r.idx = [p, q, 0, 0] ∧ Even p ∧ Even q ∧ 0 < p ∧ 0 < q) ∧
    (∀ r ∈ write_eigv_to_disk [] ⟨wfn.nirrep, wfn.frzcpi⟩ wfn.active_mopi wfn.epsilon_a
        alpha_index,
      ∃ p, r.idx = [p, 0, 0, 0] ∧ Odd p ∧ 0 < p) ∧
    (∀ r ∈ write_eigv_to_disk [] ⟨wfn.nirrep, wfn.frzcpi⟩ wfn.active_mopi wfn.epsilon_b
        beta_index,
      ∃ p, r.idx = [p, 0, 0, 0] ∧ Even p ∧ 0 < p) ∧
    (write_eigv_to_disk [] ⟨1, fun _ => 0⟩ ⟨1, fun _ => 2⟩ uhfWfn.epsilon_a alpha_index).map
      Record.idx = [[1, 0, 0, 0], [3, 0, 0, 0]] ∧
    (write_eigv_to_disk [] ⟨1, fun _ => 0⟩ ⟨1, fun _ => 2⟩ uhfWfn.epsilon_b beta_index).map
      Record.idx = [[2, 0, 0, 0], [4, 0, 0, 0]] := by
  have hf : fcidump (some wfn) options ext = ⟨Status.returned, [⟨options.INTEGRALS_FILE,
      fcidump_header (wfn.active_mopi.sum * 2) wfn.nelectron (wfn.nalpha - wfn.nbeta) false
        ⟨wfn.nirrep, wfn.frzcpi⟩ wfn.active_mopi,
      fcidump_unrestricted wfn options ext []⟩]⟩ := by
    simp [fcidump, href, hopen, hu]
  refine ⟨by rw [hf], by rw [hf, ← fcidump_unrestricted_eq]; rfl, ?_, ?_, ?_, ?_, ?_, ?_, ?_,
    by decide, by decide⟩
  · intro r hr
    obtain ⟨p, q, r', s, h⟩ := tei_idx_of_mem _ _ _ _ _ r hr
    exact ⟨_, _, _, _, h, alpha_index_odd _, alpha_index_odd _, alpha_index_odd _,
      alpha_index_odd _⟩
  · intro r hr
    obtain ⟨p, q, r', s, h⟩ := tei_idx_of_mem _ _ _ _ _ r hr
    exact ⟨_, _, _, _, h, beta_index_even _, beta_index_even _, beta_index_even _,
      beta_index_even _⟩
  · intro r hr
    obtain ⟨p, q, r', s, h⟩ := tei_idx_of_mem _ _ _ _ _ r hr
    exact ⟨_, _, _, _, h, alpha_index_odd _, alpha_index_odd _, beta_index_even _,
      beta_index_even _⟩
  · intro r hr
    obtain ⟨p, q, h⟩ := oei_idx_of_mem _ _ _ r hr
    exact ⟨_, _, h, alpha_index_odd _, alpha_index_odd _, alpha_index_pos _, alpha_index_pos _⟩
  · intro r hr
    obtain ⟨p, q, h⟩ := oei_idx_of_mem _ _ _ r hr
    exact ⟨_, _, h, beta_index_even _, beta_index_even _, beta_index_pos _, beta_index_pos _⟩
  · intro r hr
    obtain ⟨k, h⟩ := eigv_idx_of_mem _ _ _ _ r hr
    exact ⟨_, h, alpha_index_odd _, alpha_index_pos _⟩
  · intro r hr
    obtain ⟨k, h⟩ := eigv_idx_of_mem _ _ _ _ r hr
    exact ⟨_, h, beta_index_even _, beta_index_pos _⟩

/-- Witness for C12: the unrestricted example run returns normally. -/
theorem unrestricted_index_parity_witness :
    uhfWfn.same_a_b_orbs = false ∧ (exampleOptions "UHF" false).REFERENCE ≠ "ROHF" ∧
    exampleExt.fopen_ok (exampleOptions "UHF" false).INTEGRALS_FILE = true ∧
    (fcidump (some uhfWfn) (exampleOptions "UHF" false) exampleExt).status = Status.returned :=
  ⟨rfl, by decide, rfl,
    (unrestricted_index_parity uhfWfn (exampleOptions "UHF" false) exampleExt rfl (by decide)
      rfl).1⟩

/-! ## Cutoff above every element -/

/-- C15: when every lower-triangle element of the matrix has magnitude below
the cutoff, `write_oei_to_disk` writes nothing, and when every element of the
packed buffer has magnitude below the cutoff, `write_tei_to_disk` writes
nothing, whatever the index mappings. -/
theorem no_record_below_cutoff (intdump : FILE) (moH : SharedMatrix) (nirrep : Nat)
    (K : dpdbuf4) (tau : ℚ) (map map1 map2 : orb_indx)
    (hoei : ∀ h m n, h < moH.nirrep → n ≤ m → m < moH.rowdim h → |moH.get h m n| < tau)
    (htei : ∀ h pq rs, h < nirrep → pq < K.params.rowtot h → rs < K.params.coltot h →
      |K.matrix h pq rs| < tau) :
    write_oei_to_disk intdump moH tau map = intdump ∧
    write_tei_to_disk intdump nirrep K tau map1 map2 = intdump := by
  constructor
  · rw [write_oei_to_disk_eq, oei_records]
    have : (lowerTriangle moH).filter (fun t => |moH.get t.1 t.2.1 t.2.2| > tau) = [] := by
      rw [List.filter_eq_nil_iff]
      rintro ⟨h, m, n⟩ ht
      obtain ⟨hh, hn, hm⟩ := (mem_lowerTriangle moH h m n).1 ht
      have := hoei h m n hh hn hm
      simp only [gt_iff_lt, decide_eq_true_eq, not_lt]
      exact le_of_lt this
    rw [this]; simp
  · rw [write_tei_to_disk_eq, tei_records]
    have : (teiTriples nirrep K).filter (fun t => |K.matrix t.1 t.2.1 t.2.2| > tau) = [] := by
      rw [List.filter_eq_nil_iff]
      rintro ⟨h, pq, rs⟩ ht
      rw [teiTriples, mem_triples] at ht
      have := htei h pq rs ht.1 ht.2.1 ht.2.2
      simp only [gt_iff_lt, decide_eq_true_eq, not_lt]
      exact le_of_lt this
    rw [this]; simp

/-- Witness for C15: cutoff 10 with the matrix `denseH` (elements at most 4)
and the buffer `tinyK` (single element 3). -/
theorem no_record_below_cutoff_witness :
    write_oei_to_disk [] denseH 10 mo_index = [] ∧
    write_tei_to_disk [] 1 tinyK 10 alpha_index beta_index = [] :=
  no_record_below_cutoff [] denseH 1 tinyK 10 mo_index alpha_index beta_index
    (by
      intro h m n hh hn hm
      have h2 : h < 2 := hh
      have hm2 : m < 2 := by
        have : denseH.rowdim h ≤ 2 := by
          simp only [denseH]
          interval_cases h <;> simp
        exact lt_of_lt_of_le hm this
      simp only [denseH]
      interval_cases h <;> interval_cases m <;> interval_cases n <;> norm_num [abs_of_pos])
    (by
      intro h pq rs _ _ _
      simp only [tinyK]
      norm_num [abs_of_pos])

/-! ## Ordering of the indices of the one-electron writer -/

theorem index_maps_strictMono :
    StrictMono mo_index ∧ StrictMono alpha_index ∧ StrictMono beta_index := by
  refine ⟨?_, ?_, ?_⟩
  · intro a b h; simp only [mo_index]; omega
  · intro a b h; simp only [alpha_index]; omega
  · intro a b h; simp only [beta_index]; omega

theorem idxPair_oei_record (moH : SharedMatrix) (map : orb_indx) (t : Nat × Nat × Nat) :
    idxPair (oei_record moH map t) =
      (map ((t.2.1 + irrepOffset moH.rowdim t.1 : Nat) : Int),
       map ((t.2.2 + irrepOffset moH.rowdim t.1 : Nat) : Int)) := rfl

theorem lowerTriangle_next_irrep (moH : SharedMatrix) (t t' : Nat × Nat × Nat)
    (ht : t ∈ lowerTriangle moH) (ht' : t' ∈ lowerTriangle moH) (hlt : t.1 < t'.1) :
    t.2.1 + irrepOffset moH.rowdim t.1 < t'.2.2 + irrepOffset moH.rowdim t'.1 := by
  obtain ⟨h, m, n⟩ := t
  obtain ⟨h', m', n'⟩ := t'
  obtain ⟨-, -, hm⟩ := (mem_lowerTriangle moH h m n).1 ht
  have := irrepOffset_block_le moH.rowdim h' h hlt
  simp only at *
  omega

/-- C16: for a strictly increasing index mapping (`mo_index`, `alpha_index`
and `beta_index` are strictly increasing), every record written by
`write_oei_to_disk` has its first index at least as large as its second; the
sequence of the written index pairs `(p, q)` is strictly increasing in
lexicographic order, so no pair is written twice; and both indices of an
element of irrep `h` are strictly smaller than both indices of an element of
any irrep `h' > h`. -/
theorem write_oei_to_disk_indices_increasing (moH : SharedMatrix) (tau : ℚ) (map : orb_indx)
    (hmap : StrictMono map) :
    (StrictMono mo_index ∧ StrictMono alpha_index ∧ StrictMono beta_index) ∧
    (∀ r ∈ write_oei_to_disk [] moH tau map, (idxPair r).2 ≤ (idxPair r).1) ∧
    ((write_oei_to_disk [] moH tau map).map idxPair).Pairwise lexLt2 ∧
    ((write_oei_to_disk [] moH tau map).map idxPair).Nodup ∧
    (∀ t t', t ∈ lowerTriangle moH → t' ∈ lowerTriangle moH → t.1 < t'.1 →
      (idxPair (oei_record moH map t)).1 < (idxPair (oei_record moH map t')).1 ∧
      (idxPair (oei_record moH map t)).1 < (idxPair (oei_record moH map t')).2 ∧
      (idxPair (oei_record moH map t)).2 < (idxPair (oei_record moH map t')).1 ∧
      (idxPair (oei_record moH map t)).2 < (idxPair (oei_record moH map t')).2) := by
  have hsorted : ((write_oei_to_disk [] moH tau map).map idxPair).Pairwise lexLt2 := by
    rw [write_oei_to_disk_eq, List.nil_append, oei_records, List.map_map]
    refine List.Pairwise.map _ ?_
      (((List.Pairwise.and_mem.1 (triples_pairwise moH.nirrep moH.rowdim
        (fun _ m => m + 1))).filter _))
    rintro ⟨h, m, n⟩ ⟨h', m', n'⟩ ⟨ht, ht', hlt⟩
    simp only [Function.comp_apply, idxPair_oei_record, lexLt2]
    rcases hlt with h1 | ⟨h1, h2 | ⟨h2, h3⟩⟩
    · left
      apply hmap
      have := lowerTriangle_next_irrep moH _ _ ht ht' h1
      obtain ⟨-, hn', -⟩ := (mem_lowerTriangle moH h' m' n').1 ht'
      simp only at *
      omega
    · left
      apply hmap
      simp only at h1 h2
      subst h1
      omega
    · right
      simp only at h1 h2 h3
      subst h1 h2
      exact ⟨rfl, hmap (by omega)⟩
  refine ⟨index_maps_strictMono, ?_, hsorted, ?_, ?_⟩
  · intro r hr
    rw [write_oei_to_disk_eq, List.nil_append, oei_records, List.mem_map] at hr
    obtain ⟨⟨h, m, n⟩, ht, rfl⟩ := hr
    obtain ⟨-, hn, -⟩ := (mem_lowerTriangle moH h m n).1 (List.mem_filter.1 ht).1
    rw [idxPair_oei_record]
    exact hmap.monotone (by simp only; omega)
  · refine hsorted.imp ?_
    rintro a b hlt heq
    subst heq
    rcases hlt with h | ⟨-, h⟩ <;> exact absurd h (lt_irrefl _)
  · intro t t' ht ht' hlt
    have hkey := lowerTriangle_next_irrep moH t t' ht ht' hlt
    obtain ⟨h, m, n⟩ := t
    obtain ⟨h', m', n'⟩ := t'
    obtain ⟨-, hn, -⟩ := (mem_lowerTriangle moH h m n).1 ht
    obtain ⟨-, hn', -⟩ := (mem_lowerTriangle moH h' m' n').1 ht'
    simp only [idxPair_oei_record]
    simp only at hkey hn hn'
    refine ⟨hmap ?_, hmap ?_, hmap ?_, hmap ?_⟩ <;> omega

/-- Witness for C16: the matrix `gridH` with the alpha mapping; its four
records carry the index pairs (1,1), (3,1), (3,3), (5,5). -/
theorem write_oei_to_disk_indices_increasing_witness :
    ((write_oei_to_disk [] gridH 0 alpha_index).map idxPair).Pairwise lexLt2 ∧
    (write_oei_to_disk [] gridH 0 alpha_index).map idxPair = [(1, 1), (3, 1), (3, 3), (5, 5)] :=
  ⟨(write_oei_to_disk_indices_increasing gridH 0 alpha_index index_maps_strictMono.2.1).2.2.1,
    by decide⟩

/-! ## Consistent numbering of eigenvalues and one-electron integrals -/

/-- C19: for active counts `a(h)`, any frozen-core counts, any energies and
the same mapping, the index that `write_eigv_to_disk` attaches to the energy
of the `j`-th active orbital of irrep `h` and the index that
`write_oei_to_disk`, run on a matrix with block dimensions `a(h)`, attaches to
the diagonal element `(h, j, j)` are both `map((sum of a(h') over h' < h) + j)`:
the eigenvalue record at position `A(h) + j` carries it, and so does, in both
index slots, the record of the diagonal element, which is written whenever
that element exceeds the cutoff. -/
theorem eigv_oei_numbering_consistent (frzcpi active_mopi : Dimension)
    (eigv : Nat → Nat → ℚ) (moH : SharedMatrix) (tau : ℚ) (map : orb_indx)
    (hn : moH.nirrep = active_mopi.n) (hd : moH.rowdim = active_mopi.get)
    (h j : Nat) (hh : h < active_mopi.n) (hj : j < active_mopi.get h) :
    (write_eigv_to_disk [] frzcpi active_mopi eigv map)[irrepOffset active_mopi.get h + j]? =
      some ⟨28, eigv h (frzcpi.get h + j),
        [map ((irrepOffset active_mopi.get h + j : Nat) : Int), 0, 0, 0]⟩ ∧
    oei_record moH map (h, j, j) =
      ⟨29, moH.get h j j,
        [map ((irrepOffset active_mopi.get h + j : Nat) : Int),
         map ((irrepOffset active_mopi.get h + j : Nat) : Int), 0, 0]⟩ ∧
    (|moH.get h j j| > tau → oei_record moH map (h, j, j) ∈ write_oei_to_disk [] moH tau map) ∧
    (∀ r ∈ write_oei_to_disk [] moH tau map, ∃ t ∈ lowerTriangle moH, r = oei_record moH map t) := by
  refine ⟨?_, ?_, ?_, ?_⟩
  · rw [write_eigv_to_disk_eq, List.nil_append]
    exact getElem?_blocks active_mopi.n active_mopi.get _ h j hh hj
  · simp only [oei_record, hd, Nat.add_comm]
  · intro habove
    rw [write_oei_to_disk_eq, List.nil_append, oei_records]
    refine List.mem_map.2 ⟨(h, j, j), List.mem_filter.2 ⟨?_, by simpa using habove⟩, rfl⟩
    exact (mem_lowerTriangle moH h j j).2 ⟨by rw [hn]; exact hh, le_refl _, by rw [hd]; exact hj⟩
  · intro r hr
    rw [write_oei_to_disk_eq, List.nil_append, oei_records, List.mem_map] at hr
    obtain ⟨t, ht, rfl⟩ := hr
    exact ⟨t, (List.mem_filter.1 ht).1, rfl⟩

/-- Witness for C19: the restricted example, irrep 1, orbital 0, which both
writers number `mo_index 2 = 3`. -/
theorem eigv_oei_numbering_consistent_witness :
    (write_eigv_to_disk [] ⟨2, fun _ => 0⟩ ⟨2, denseH.rowdim⟩ rhfWfn.epsilon_a mo_index)[2]? =
      some ⟨28, rhfWfn.epsilon_a 1 0, [3, 0, 0, 0]⟩ ∧
    oei_record denseH mo_index (1, 0, 0) = ⟨29, denseH.get 1 0 0, [3, 3, 0, 0]⟩ :=
  have h := eigv_oei_numbering_consistent ⟨2, fun _ => 0⟩ ⟨2, denseH.rowdim⟩ rhfWfn.epsilon_a
    denseH 0 mo_index rfl rfl 1 0 (by decide) (by decide)
  ⟨h.1, h.2.1⟩


/-! ## The property writer: visited orbital pairs -/

theorem foldl_emit {α : Type} (l : List Nat) (g : Nat → List α) (f0 : List α) :
    l.foldl (fun f i => f ++ g i) f0 = f0 ++ l.flatMap g := by
  induction l generalizing f0 with
  | nil => simp
  | cons x l ih => simp [ih]

theorem forLoop_emit_from (lo hi : Nat) (g : Nat → FILE) (f0 : FILE) :
    forLoop lo hi (fun i f => f ++ g i) f0 = f0 ++ (List.range' lo (hi - lo)).flatMap g :=
  foldl_emit _ g f0

theorem flatMap_cond_singleton (l : List Nat) (c : Nat → Prop) [DecidablePred c]
    (r : Nat → Record) :
    l.flatMap (fun i => if c i then [r i] else []) = (l.filter (fun i => c i)).map r := by
  induction l with
  | nil => rfl
  | cons x l ih =>
    by_cases h : c x <;> simp [List.flatMap_cons, List.filter_cons, h, ih]

theorem forLoop_cond_emit_from (lo hi : Nat) (c : Nat → Prop) [DecidablePred c]
    (r : Nat → Record) (f0 : FILE) :
    forLoop lo hi (fun i f => if c i then fprintf f (r i) else f) f0 =
      f0 ++ ((List.range' lo (hi - lo)).filter (fun i => c i)).map r := by
  have hb : (fun i (f : FILE) => if c i then fprintf f (r i) else f) =
      (fun i f => f ++ (if c i then [r i] else [])) := by
    funext i f
    by_cases h : c i <;> simp [h, fprintf]
  rw [hb, forLoop_emit_from, flatMap_cond_singleton]

theorem foldl_offsets_from (lo n : Nat) (d c : Nat → Nat) (H : Nat → Nat → Nat → FILE)
    (x0 y0 : Nat) (f0 : FILE) :
    (List.range' lo n).foldl (fun (st : Nat × Nat × FILE) h =>
        (st.1 + d h, st.2.1 + c h, st.2.2 ++ H st.1 st.2.1 h)) (x0, y0, f0) =
      (x0 + ((List.range' lo n).map d).sum, y0 + ((List.range' lo n).map c).sum,
        f0 ++ (List.range' lo n).flatMap (fun h =>
          H (x0 + ((List.range' lo (h - lo)).map d).sum)
            (y0 + ((List.range' lo (h - lo)).map c).sum) h)) := by
  induction n with
  | zero => simp
  | succ n ih =>
    rw [List.range'_concat, List.foldl_append, ih]
    simp [Nat.add_assoc]

theorem irrepOffset_add_range' (d : Nat → Nat) (lo k : Nat) :
    irrepOffset d lo + ((List.range' lo k).map d).sum = irrepOffset d (lo + k) := by
  induction k with
  | zero => simp
  | succ k ih =>
    rw [List.range'_concat, List.map_append, List.sum_append, ← Nat.add_assoc, ih,
      ← Nat.add_assoc, irrepOffset_succ]
    simp

theorem forLoop_offsets (N : Nat) (d c : Nat → Nat) (G : Nat → Nat → Nat → FILE) (f0 : FILE) :
    forLoop 0 N (fun h (st : Nat × Nat × FILE) =>
        (st.1 + d h, st.2.1 + c h, st.2.2 ++ G st.1 (st.2.1 + c h) h)) (0, 0, f0) =
      (irrepOffset d N, irrepOffset c N,
        f0 ++ (List.range N).flatMap (fun h => G (irrepOffset d h) (irrepOffset c (h + 1)) h)) := by
  induction N with
  | zero => simp [forLoop, irrepOffset]
  | succ N ih => rw [forLoop_succ, ih]; simp [irrepOffset_succ, List.range_succ]

theorem range'_sum_eq_sub (c : Nat → Nat) (lo h : Nat) (hle : lo ≤ h) :
    ((List.range' lo (h - lo)).map c).sum = irrepOffset c h - irrepOffset c lo := by
  have := irrepOffset_add_range' c lo (h - lo)
  rw [Nat.add_sub_cancel' hle] at this
  omega

theorem prop_walk_eq (intdump : FILE) (wfn : Wavefunction) (d : Nat → Nat)
    (P : Nat → Nat → ℚ) (tau : ℚ) (map : orb_indx) (frz0 : ℚ) :
    (write_oei_prop_to_disk intdump wfn d P tau map frz0).1 =
      intdump ++ ((propVisits wfn.nirrep wfn.frzcpi
          (fun h => wfn.nmopi h - wfn.frzcpi h - wfn.frzvpi h)).filter
        (fun q => |P (q.2.2.1 + irrepOffset d q.1) (q.2.2.2 + irrepOffset d q.2.1)| > tau)).map
        (prop_record d wfn.frzcpi P map) := by
  obtain ⟨N, nmopi, c, frzv⟩ := wfn
  simp only [write_oei_prop_to_disk, forLoop_cond_emit_from, forLoop_emit_from,
    Nat.add_sub_cancel_left]
  have hh2 : ∀ (h1 ioff1 nfrz1 : Nat) (f : FILE),
      (forLoop h1 N (fun h2 (st2 : Nat × Nat × FILE) =>
        (st2.1 + d h2, st2.2.1 + c h2,
          st2.2.2 ++ (List.range' (c h1) (nmopi h1 - c h1 - frzv h1)).flatMap (fun m1 =>
            ((List.range' (if h1 = h2 then m1 else c h2)
                (c h2 + (nmopi h2 - c h2 - frzv h2) - (if h1 = h2 then m1 else c h2))).filter
              (fun m2 => |P (m1 + ioff1) (m2 + st2.1)| > tau)).map (fun m2 =>
                (⟨29, P (m1 + ioff1) (m2 + st2.1),
                  [map (((m1 + ioff1 : Nat) : Int) - (nfrz1 : Int)),
                   map (((m2 + st2.1 : Nat) : Int) - (st2.2.1 : Int))]⟩ : Record)))))
        (ioff1, nfrz1, f)).2.2 =
      f ++ (List.range' h1 (N - h1)).flatMap (fun h2 =>
        (List.range' (c h1) (nmopi h1 - c h1 - frzv h1)).flatMap (fun m1 =>
            ((List.range' (if h1 = h2 then m1 else c h2)
                (c h2 + (nmopi h2 - c h2 - frzv h2) - (if h1 = h2 then m1 else c h2))).filter
              (fun m2 => |P (m1 + ioff1)
                (m2 + (ioff1 + ((List.range' h1 (h2 - h1)).map d).sum))| > tau)).map (fun m2 =>
                (⟨29, P (m1 + ioff1) (m2 + (ioff1 + ((List.range' h1 (h2 - h1)).map d).sum)),
                  [map (((m1 + ioff1 : Nat) : Int) - (nfrz1 : Int)),
                   map (((m2 + (ioff1 + ((List.range' h1 (h2 - h1)).map d).sum) : Nat) : Int) -
                     ((nfrz1 + ((List.range' h1 (h2 - h1)).map c).sum : Nat) : Int))]⟩ :
                  Record)))) := by
    intro h1 ioff1 nfrz1 f
    have := foldl_offsets_from h1 (N - h1) d c (fun x y h2 =>
      (List.range' (c h1) (nmopi h1 - c h1 - frzv h1)).flatMap (fun m1 =>
            ((List.range' (if h1 = h2 then m1 else c h2)
                (c h2 + (nmopi h2 - c h2 - frzv h2) - (if h1 = h2 then m1 else c h2))).filter
              (fun m2 => |P (m1 + ioff1) (m2 + x)| > tau)).map (fun m2 =>
                (⟨29, P (m1 + ioff1) (m2 + x),
                  [map (((m1 + ioff1 : Nat) : Int) - (nfrz1 : Int)),
                   map (((m2 + x : Nat) : Int) - (y : Int))]⟩ : Record)))) ioff1 nfrz1 f
    unfold forLoop
    rw [this]
  simp only [hh2]
  rw [forLoop_offsets N d c (fun ioff1 nfrz1 h1 =>
    (List.range' h1 (N - h1)).flatMap (fun h2 =>
        (List.range' (c h1) (nmopi h1 - c h1 - frzv h1)).flatMap (fun m1 =>
            ((List.range' (if h1 = h2 then m1 else c h2)
                (c h2 + (nmopi h2 - c h2 - frzv h2) - (if h1 = h2 then m1 else c h2))).filter
              (fun m2 => |P (m1 + ioff1)
                (m2 + (ioff1 + ((List.range' h1 (h2 - h1)).map d).sum))| > tau)).map (fun m2 =>
                (⟨29, P (m1 + ioff1) (m2 + (ioff1 + ((List.range' h1 (h2 - h1)).map d).sum)),
                  [map (((m1 + ioff1 : Nat) : Int) - (nfrz1 : Int)),
                   map (((m2 + (ioff1 + ((List.range' h1 (h2 - h1)).map d).sum) : Nat) : Int) -
                     ((nfrz1 + ((List.range' h1 (h2 - h1)).map c).sum : Nat) : Int))]⟩ :
                  Record)))))]
  simp only [propVisits, List.filter_flatMap, List.map_flatMap, List.filter_map, List.map_map]
  congr 1
  apply List.flatMap_congr
  intro h1 _
  apply List.flatMap_congr
  intro h2 hh2
  have hle : h1 ≤ h2 := (List.mem_range'_1.1 hh2).1
  have e1 : irrepOffset d h1 + ((List.range' h1 (h2 - h1)).map d).sum = irrepOffset d h2 := by
    rw [irrepOffset_add_range', Nat.add_sub_cancel' hle]
  rw [e1, range'_sum_eq_sub c h1 h2 hle]
  rfl

/-! ### Decomposition of a global position into irrep and offset -/

theorem block_lt (d : Nat → Nat) (h h' m : Nat) (hlt : h < h') (hm : m < d h) :
    irrepOffset d h + m < irrepOffset d h' := by
  have := irrepOffset_block_le d h' h hlt
  omega

theorem block_unique (d : Nat → Nat) (h m h' m' : Nat) (hm : m < d h) (hm' : m' < d h')
    (heq : irrepOffset d h + m = irrepOffset d h' + m') : h = h' ∧ m = m' := by
  rcases Nat.lt_trichotomy h h' with hlt | rfl | hgt
  · have := block_lt d h h' m hlt hm; omega
  · exact ⟨rfl, by omega⟩
  · have := block_lt d h' h m' hgt hm'; omega

theorem block_exists (d : Nat → Nat) (n g : Nat) (hg : g < irrepOffset d n) :
    ∃ h m, h < n ∧ m < d h ∧ g = irrepOffset d h + m := by
  induction n with
  | zero => simp [irrepOffset] at hg
  | succ n ih =>
    rw [irrepOffset_succ] at hg
    by_cases hlt : g < irrepOffset d n
    · obtain ⟨h, m, hh, hm, rfl⟩ := ih hlt
      exact ⟨h, m, Nat.lt_succ_of_lt hh, hm, rfl⟩
    · exact ⟨n, g - irrepOffset d n, Nat.lt_succ_self n, by omega, by omega⟩

theorem irrepOffset_congr (d d' : Nat → Nat) (k : Nat) (h : ∀ i, i < k → d i = d' i) :
    irrepOffset d k = irrepOffset d' k := by
  unfold irrepOffset
  congr 1
  apply List.map_congr_left
  intro i hi
  exact h i (List.mem_range.1 hi)

theorem irrepOffset_zero_of (c : Nat → Nat) (k : Nat) (h : ∀ i, i < k → c i = 0) :
    irrepOffset c k = 0 := by
  rw [irrepOffset_congr c (fun _ => 0) k h]
  simp [irrepOffset]

/-! ### The upper triangle -/

theorem mem_upperTriangle (N g1 g2 : Nat) : (g1, g2) ∈ upperTriangle N ↔ g1 ≤ g2 ∧ g2 < N := by
  simp only [upperTriangle, List.mem_flatMap, List.mem_map, List.mem_range, List.mem_range'_1,
    Prod.mk.injEq]
  constructor
  · rintro ⟨a, ha, b, ⟨hb1, hb2⟩, rfl, rfl⟩; omega
  · rintro ⟨h1, h2⟩; exact ⟨g1, by omega, g2, ⟨h1, by omega⟩, rfl, rfl⟩

theorem nodup_flatMap_tag {α β : Type} (l : List α) (f : α → List β) (key : β → α)
    (hl : l.Nodup) (hf : ∀ x ∈ l, (f x).Nodup) (hkey : ∀ x ∈ l, ∀ y ∈ f x, key y = x) :
    (l.flatMap f).Nodup := by
  rw [List.nodup_flatMap]
  refine ⟨hf, (List.Pairwise.and_mem.1 hl).imp ?_⟩
  rintro a b ⟨ha, hb, hne⟩ y hya hyb
  exact hne ((hkey a ha y hya).symm.trans (hkey b hb y hyb))

theorem nodup_upperTriangle (N : Nat) : (upperTriangle N).Nodup := by
  refine nodup_flatMap_tag _ _ Prod.fst (List.nodup_range N) ?_ ?_
  · intro g1 _
    exact (List.nodup_range' g1 (N - g1)).map (fun a b h => (Prod.mk.inj h).2)
  · intro g1 _ y hy
    obtain ⟨g2, -, rfl⟩ := List.mem_map.1 hy
    rfl

theorem sum_descending (N M : Nat) :
    2 * ((List.range N).map (fun g => M + N - g)).sum = 2 * N * M + N * (N + 1) := by
  induction N generalizing M with
  | zero => simp
  | succ N ih =>
    rw [List.range_succ, List.map_append, List.sum_append]
    have hc : (List.range N).map (fun g => M + (N + 1) - g) =
        (List.range N).map (fun g => (M + 1) + N - g) := by
      apply List.map_congr_left
      intro g _
      omega
    rw [hc, Nat.mul_add, ih (M + 1)]
    simp only [List.map_cons, List.map_nil, List.sum_cons, List.sum_nil]
    have : M + (N + 1) - N = M + 1 := by omega
    rw [this]
    ring

theorem length_upperTriangle (N : Nat) : (upperTriangle N).length = N * (N + 1) / 2 := by
  have h := sum_descending N 0
  have hl : (upperTriangle N).length = ((List.range N).map (fun g => 0 + N - g)).sum := by
    simp [upperTriangle, List.length_flatMap, Function.comp_def]
  rw [hl]
  generalize ((List.range N).map (fun g => 0 + N - g)).sum = s at h
  generalize N * (N + 1) = x at h
  omega

/-! ### The visited pairs -/

theorem mem_propVisits (n : Nat) (c a : Nat → Nat) (h1 h2 m1 m2 : Nat) :
    (h1, h2, m1, m2) ∈ propVisits n c a ↔
      h1 ≤ h2 ∧ h2 < n ∧ c h1 ≤ m1 ∧ m1 < c h1 + a h1 ∧
      (if h1 = h2 then m1 else c h2) ≤ m2 ∧ m2 < c h2 + a h2 := by
  simp only [propVisits, List.mem_flatMap, List.mem_map, List.mem_range, List.mem_range'_1,
    Prod.mk.injEq]
  constructor
  · rintro ⟨a1, ha1, a2, ⟨ha2, ha2'⟩, b1, ⟨hb1, hb1'⟩, b2, ⟨hb2, hb2'⟩, rfl, rfl, rfl, rfl⟩
    refine ⟨ha2, by omega, hb1, hb1', hb2, ?_⟩
    omega
  · rintro ⟨hle, hn, hm1, hm1', hm2, hm2'⟩
    exact ⟨h1, by omega, h2, ⟨hle, by omega⟩, m1, ⟨hm1, hm1'⟩, m2, ⟨hm2, by omega⟩,
      rfl, rfl, rfl, rfl⟩

theorem nodup_propVisits (n : Nat) (c a : Nat → Nat) : (propVisits n c a).Nodup := by
  refine nodup_flatMap_tag _ _ (fun q => q.1) (List.nodup_range n) ?_ ?_
  · intro h1 _
    refine nodup_flatMap_tag _ _ (fun q => q.2.1) (List.nodup_range' _ _) ?_ ?_
    · intro h2 _
      refine nodup_flatMap_tag _ _ (fun q => q.2.2.1) (List.nodup_range' _ _) ?_ ?_
      · intro m1 _
        exact (List.nodup_range' _ _).map (fun x y h => by
          simp only [Prod.mk.injEq, true_and] at h; exact h)
      · intro m1 _ y hy
        obtain ⟨m2, -, rfl⟩ := List.mem_map.1 hy
        rfl
    · intro h2 _ y hy
      simp only [List.mem_flatMap, List.mem_map] at hy
      obtain ⟨_, _, _, _, rfl⟩ := hy
      rfl
  · intro h1 _ y hy
    simp only [List.mem_flatMap, List.mem_map] at hy
    obtain ⟨_, _, _, _, _, _, rfl⟩ := hy
    rfl

theorem visitActive_inj (n : Nat) (c a : Nat → Nat) (q q' : Nat × Nat × Nat × Nat)
    (hq : q ∈ propVisits n c a) (hq' : q' ∈ propVisits n c a)
    (heq : visitActive c a q = visitActive c a q') : q = q' := by
  obtain ⟨h1, h2, m1, m2⟩ := q
  obtain ⟨h1', h2', m1', m2'⟩ := q'
  obtain ⟨hle, hn, hm1, hm1', hm2, hm2'⟩ := (mem_propVisits n c a h1 h2 m1 m2).1 hq
  obtain ⟨hle', hn', gm1, gm1', gm2, gm2'⟩ := (mem_propVisits n c a h1' h2' m1' m2').1 hq'
  simp only [visitActive, Prod.mk.injEq] at heq
  have hc2 : c h2 ≤ m2 := by
    by_cases he : h1 = h2
    · subst he; simp only [if_true] at hm2; omega
    · simp only [he, if_false] at hm2; exact hm2
  have gc2 : c h2' ≤ m2' := by
    by_cases he : h1' = h2'
    · subst he; simp only [if_true] at gm2; omega
    · simp only [he, if_false] at gm2; exact gm2
  obtain ⟨e1, e2⟩ := block_unique a h1 (m1 - c h1) h1' (m1' - c h1') (by omega) (by omega) heq.1
  obtain ⟨e3, e4⟩ := block_unique a h2 (m2 - c h2) h2' (m2' - c h2') (by omega) (by omega) heq.2
  subst e1 e3
  have : m1 = m1' := by omega
  have : m2 = m2' := by omega
  subst_vars
  rfl

theorem mem_map_visitActive (n : Nat) (c a : Nat → Nat) (x y : Nat) :
    (x, y) ∈ (propVisits n c a).map (visitActive c a) ↔ x ≤ y ∧ y < irrepOffset a n := by
  rw [List.mem_map]
  constructor
  · rintro ⟨⟨h1, h2, m1, m2⟩, hq, heq⟩
    obtain ⟨hle, hn, hm1, hm1', hm2, hm2'⟩ := (mem_propVisits n c a h1 h2 m1 m2).1 hq
    simp only [visitActive, Prod.mk.injEq] at heq
    obtain ⟨rfl, rfl⟩ := heq
    have hb := irrepOffset_block_le a n h2 hn
    have hc2 : c h2 ≤ m2 := by
      by_cases he : h1 = h2
      · subst he; simp only [if_true] at hm2; omega
      · simp only [he, if_false] at hm2; exact hm2
    refine ⟨?_, by omega⟩
    rcases Nat.lt_or_eq_of_le hle with hlt | rfl
    · have := block_lt a h1 h2 (m1 - c h1) hlt (by omega)
      omega
    · simp only [if_true] at hm2
      omega
  · rintro ⟨hxy, hy⟩
    obtain ⟨h2, k2, hh2, hk2, rfl⟩ := block_exists a n y hy
    obtain ⟨h1, k1, hh1, hk1, rfl⟩ := block_exists a n x (by omega)
    have hle : h1 ≤ h2 := by
      by_contra hcon
      have := block_lt a h2 h1 k2 (by omega) hk2
      omega
    refine ⟨(h1, h2, c h1 + k1, c h2 + k2), (mem_propVisits n c a _ _ _ _).2
      ⟨hle, hh2, by omega, by omega, ?_, by omega⟩, ?_⟩
    · split
      · next he => subst he; omega
      · omega
    · simp [visitActive]

theorem visits_perm_upperTriangle (n : Nat) (c a : Nat → Nat) :
    ((propVisits n c a).map (visitActive c a)).Perm (upperTriangle (irrepOffset a n)) := by
  refine (List.perm_ext_iff_of_nodup ?_ (nodup_upperTriangle _)).2 ?_
  · exact List.Nodup.map_on (fun q hq q' hq' h => visitActive_inj n c a q q' hq hq' h)
      (nodup_propVisits n c a)
  · rintro ⟨x, y⟩
    rw [mem_map_visitActive, mem_upperTriangle]

theorem visit_bounds (n : Nat) (c a : Nat → Nat) (h1 h2 m1 m2 : Nat)
    (hq : (h1, h2, m1, m2) ∈ propVisits n c a) :
    h1 ≤ h2 ∧ h1 < n ∧ h2 < n ∧ c h1 ≤ m1 ∧ m1 < c h1 + a h1 ∧ c h2 ≤ m2 ∧ m2 < c h2 + a h2 ∧
      (h1 = h2 → m1 ≤ m2) := by
  obtain ⟨hle, hn, hm1, hm1', hm2, hm2'⟩ := (mem_propVisits n c a h1 h2 m1 m2).1 hq
  refine ⟨hle, by omega, hn, hm1, hm1', ?_, hm2', ?_⟩
  · by_cases he : h1 = h2
    · subst he; simp only [if_true] at hm2; omega
    · simp only [he, if_false] at hm2; exact hm2
  · intro he
    simp only [he, if_true] at hm2
    exact hm2

theorem visitPos_inj (n : Nat) (c a d : Nat → Nat) (hdim : ∀ h, h < n → c h + a h ≤ d h)
    (q q' : Nat × Nat × Nat × Nat) (hq : q ∈ propVisits n c a) (hq' : q' ∈ propVisits n c a)
    (heq : visitPos d q = visitPos d q') : q = q' := by
  obtain ⟨h1, h2, m1, m2⟩ := q
  obtain ⟨h1', h2', m1', m2'⟩ := q'
  obtain ⟨-, hn1, hn2, -, hm1, -, hm2, -⟩ := visit_bounds n c a h1 h2 m1 m2 hq
  obtain ⟨-, gn1, gn2, -, gm1, -, gm2, -⟩ := visit_bounds n c a h1' h2' m1' m2' hq'
  simp only [visitPos, Prod.mk.injEq] at heq
  have d1 := hdim h1 hn1
  have d2 := hdim h2 hn2
  have d1' := hdim h1' gn1
  have d2' := hdim h2' gn2
  obtain ⟨e1, e2⟩ := block_unique d h1 m1 h1' m1' (by omega) (by omega) (by omega)
  obtain ⟨e3, e4⟩ := block_unique d h2 m2 h2' m2' (by omega) (by omega) (by omega)
  subst e1 e2 e3 e4
  rfl

theorem visitPos_le (n : Nat) (c a d : Nat → Nat) (hdim : ∀ h, h < n → c h + a h ≤ d h)
    (q : Nat × Nat × Nat × Nat) (hq : q ∈ propVisits n c a) :
    (visitPos d q).1 ≤ (visitPos d q).2 := by
  obtain ⟨h1, h2, m1, m2⟩ := q
  obtain ⟨hle, hn1, hn2, -, hm1, -, hm2, hsame⟩ := visit_bounds n c a h1 h2 m1 m2 hq
  simp only [visitPos]
  rcases Nat.lt_or_eq_of_le hle with hlt | rfl
  · have := block_lt d h1 h2 m1 hlt (by have := hdim h1 hn1; omega)
    omega
  · have := hsame rfl
    omega


/-- C17: `write_oei_prop_to_disk` prints the records of the visited quadruples
`(h1, h2, m1, m2)` whose element exceeds the cutoff; the visits are exactly
the quadruples with `h1 ≤ h2 < nirrep`, `m1` in the active window of `h1` and
`m2` in the active window of `h2`, starting at `m1` when `h1 = h2`.  In global
active numbering the visited pairs are, each exactly once, the pairs
`(g1, g2)` with `g1 ≤ g2 < N`, `N` the sum of `active(h)`: every unordered
pair of active orbitals is visited once.  When the active window of every
irrep lies inside its block, no matrix position is read twice, the row never
exceeds the column, and so no position is read in both orders.  When every
visited element exceeds the cutoff, exactly `N*(N+1)/2` records are
written. -/
theorem write_oei_prop_to_disk_visits (intdump : FILE) (wfn : Wavefunction) (d : Nat → Nat)
    (P : Nat → Nat → ℚ) (tau : ℚ) (map : orb_indx) (frz0 : ℚ) :
    (write_oei_prop_to_disk intdump wfn d P tau map frz0).1 =
      intdump ++ ((propVisits wfn.nirrep wfn.frzcpi wfn.active).filter
        (fun q => |P (visitPos d q).1 (visitPos d q).2| > tau)).map
        (prop_record d wfn.frzcpi P map) ∧
    (∀ h1 h2 m1 m2, (h1, h2, m1, m2) ∈ propVisits wfn.nirrep wfn.frzcpi wfn.active ↔
      h1 ≤ h2 ∧ h2 < wfn.nirrep ∧ wfn.frzcpi h1 ≤ m1 ∧ m1 < wfn.frzcpi h1 + wfn.active h1 ∧
      (if h1 = h2 then m1 else wfn.frzcpi h2) ≤ m2 ∧ m2 < wfn.frzcpi h2 + wfn.active h2) ∧
    ((propVisits wfn.nirrep wfn.frzcpi wfn.active).map (visitActive wfn.frzcpi wfn.active)).Perm
      (upperTriangle (irrepOffset wfn.active wfn.nirrep)) ∧
    (upperTriangle (irrepOffset wfn.active wfn.nirrep)).Nodup ∧
    (∀ g1 g2, (g1, g2) ∈ upperTriangle (irrepOffset wfn.active wfn.nirrep) ↔
      g1 ≤ g2 ∧ g2 < irrepOffset wfn.active wfn.nirrep) ∧
    ((∀ h, h < wfn.nirrep → wfn.frzcpi h + wfn.active h ≤ d h) →
      ((propVisits wfn.nirrep wfn.frzcpi wfn.active).map (visitPos d)).Nodup ∧
      (∀ q ∈ propVisits wfn.nirrep wfn.frzcpi wfn.active, (visitPos d q).1 ≤ (visitPos d q).2) ∧
      (∀ x y, (x, y) ∈ (propVisits wfn.nirrep wfn.frzcpi wfn.active).map (visitPos d) →
        (y, x) ∈ (propVisits wfn.nirrep wfn.frzcpi wfn.active).map (visitPos d) → x = y)) ∧
    ((∀ q ∈ propVisits wfn.nirrep wfn.frzcpi wfn.active,
        |P (visitPos d q).1 (visitPos d q).2| > tau) →
      (write_oei_prop_to_disk intdump wfn d P tau map frz0).1.length =
        intdump.length +
          irrepOffset wfn.active wfn.nirrep * (irrepOffset wfn.active wfn.nirrep + 1) / 2) := by
  have hwalk := prop_walk_eq intdump wfn d P tau map frz0
  refine ⟨hwalk, fun h1 h2 m1 m2 => mem_propVisits _ _ _ h1 h2 m1 m2,
    visits_perm_upperTriangle _ _ _, nodup_upperTriangle _,
    fun g1 g2 => mem_upperTriangle _ g1 g2, ?_, ?_⟩
  · intro hdim
    have hle := visitPos_le wfn.nirrep wfn.frzcpi wfn.active d hdim
    refine ⟨List.Nodup.map_on (fun q hq q' hq' h => visitPos_inj _ _ _ d hdim q q' hq hq' h)
      (nodup_propVisits _ _ _), hle, ?_⟩
    intro x y hxy hyx
    obtain ⟨q, hq, e⟩ := List.mem_map.1 hxy
    obtain ⟨q', hq', e'⟩ := List.mem_map.1 hyx
    have h1 := hle q hq
    have h2 := hle q' hq'
    rw [e] at h1
    rw [e'] at h2
    exact Nat.le_antisymm h1 h2
  · intro hall
    have hfil : (propVisits wfn.nirrep wfn.frzcpi wfn.active).filter
        (fun q => |P (visitPos d q).1 (visitPos d q).2| > tau) =
        propVisits wfn.nirrep wfn.frzcpi wfn.active := by
      rw [List.filter_eq_self]
      intro q hq
      simpa using hall q hq
    have hw : (write_oei_prop_to_disk intdump wfn d P tau map frz0).1 =
        intdump ++ (propVisits wfn.nirrep wfn.frzcpi wfn.active).map
          (prop_record d wfn.frzcpi P map) := by
      rw [hwalk]
      exact congrArg (fun l => intdump ++ List.map (prop_record d wfn.frzcpi P map) l) hfil
    rw [hw, List.length_append, List.length_map, ← length_upperTriangle,
      ← (visits_perm_upperTriangle wfn.nirrep wfn.frzcpi wfn.active).length_eq, List.length_map]

/-- Witness for C17: two irreps with `[2, 1]` orbitals, none frozen, a
matrix without zero elements and cutoff 0: `3 * 4 / 2 = 6` records. -/
theorem write_oei_prop_to_disk_visits_witness :
    ((propVisits noFrozenWfn.nirrep noFrozenWfn.frzcpi noFrozenWfn.active).map
      (visitPos noFrozenWfn.nmopi)).Nodup ∧
    (write_oei_prop_to_disk [] noFrozenWfn noFrozenWfn.nmopi propP 0 mo_index 0).1.length =
      0 + irrepOffset noFrozenWfn.active noFrozenWfn.nirrep *
        (irrepOffset noFrozenWfn.active noFrozenWfn.nirrep + 1) / 2 ∧
    irrepOffset noFrozenWfn.active noFrozenWfn.nirrep = 3 :=
  have h := write_oei_prop_to_disk_visits [] noFrozenWfn noFrozenWfn.nmopi propP 0 mo_index 0
  ⟨(h.2.2.2.2.2.1 (by
      intro i hi
      simp only [Wavefunction.active, noFrozenWfn]
      omega)).1,
    h.2.2.2.2.2.2 (by
      intro q _
      simp only [propP]
      rw [abs_of_pos (by positivity)]
      positivity),
    by decide⟩

/-- C18: when no orbital is frozen (`frzc(h) = frzv(h) = 0` for every irrep,
block dimension `dim(h) = nmopi(h)`), the records `write_oei_prop_to_disk`
appends are a permutation of the records `(P(g1,g2), map(g1), map(g2))` of
the pairs `g1 ≤ g2 < N` with `|P(g1,g2)| > tau`, `N` the sum of the block
dimensions: the upper triangle of the full matrix in global zero-based
numbering, inter-irrep elements included. -/
theorem write_oei_prop_to_disk_no_frozen (intdump : FILE) (wfn : Wavefunction)
    (P : Nat → Nat → ℚ) (tau : ℚ) (map : orb_indx) (frz0 : ℚ)
    (hc : ∀ h, h < wfn.nirrep → wfn.frzcpi h = 0)
    (hv : ∀ h, h < wfn.nirrep → wfn.frzvpi h = 0) :
    ∃ out, (write_oei_prop_to_disk intdump wfn wfn.nmopi P tau map frz0).1 = intdump ++ out ∧
      out.Perm (((upperTriangle (irrepOffset wfn.nmopi wfn.nirrep)).filter
        (fun g => |P g.1 g.2| > tau)).map
        (fun g => (⟨29, P g.1 g.2, [map (g.1 : Int), map (g.2 : Int)]⟩ : Record))) := by
  refine ⟨_, prop_walk_eq intdump wfn wfn.nmopi P tau map frz0, ?_⟩
  have ha : ∀ h, h < wfn.nirrep → wfn.active h = wfn.nmopi h := by
    intro h hh
    simp only [Wavefunction.active, hc h hh, hv h hh]
    omega
  have hN : irrepOffset wfn.active wfn.nirrep = irrepOffset wfn.nmopi wfn.nirrep :=
    irrepOffset_congr _ _ _ ha
  have hpt : ∀ q ∈ propVisits wfn.nirrep wfn.frzcpi wfn.active,
      visitActive wfn.frzcpi wfn.active q = visitPos wfn.nmopi q ∧
      prop_record wfn.nmopi wfn.frzcpi P map q =
        (⟨29, P (visitPos wfn.nmopi q).1 (visitPos wfn.nmopi q).2,
          [map ((visitPos wfn.nmopi q).1 : Int), map ((visitPos wfn.nmopi q).2 : Int)]⟩ :
          Record) := by
    rintro ⟨h1, h2, m1, m2⟩ hq
    obtain ⟨hle, hn1, hn2, -, -, -, -, -⟩ := visit_bounds _ _ _ h1 h2 m1 m2 hq
    have o1 : irrepOffset wfn.active h1 = irrepOffset wfn.nmopi h1 :=
      irrepOffset_congr _ _ _ (fun i hi => ha i (by omega))
    have o2 : irrepOffset wfn.active h2 = irrepOffset wfn.nmopi h2 :=
      irrepOffset_congr _ _ _ (fun i hi => ha i (by omega))
    have z1 : irrepOffset wfn.frzcpi (h1 + 1) = 0 :=
      irrepOffset_zero_of _ _ (fun i hi => hc i (by omega))
    have z2 : irrepOffset wfn.frzcpi h2 = 0 :=
      irrepOffset_zero_of _ _ (fun i hi => hc i (by omega))
    constructor
    · simp only [visitActive, visitPos, o1, o2, hc h1 hn1, hc h2 hn2, Nat.sub_zero, Nat.add_comm]
    · simp only [prop_record, visitPos, z1, z2, Nat.zero_sub, Nat.add_zero, Nat.cast_zero,
        sub_zero]
  have hout : ((propVisits wfn.nirrep wfn.frzcpi wfn.active).filter
        (fun q => |P (q.2.2.1 + irrepOffset wfn.nmopi q.1)
          (q.2.2.2 + irrepOffset wfn.nmopi q.2.1)| > tau)).map
        (prop_record wfn.nmopi wfn.frzcpi P map) =
      ((((propVisits wfn.nirrep wfn.frzcpi wfn.active).map
          (visitActive wfn.frzcpi wfn.active)).filter (fun g => |P g.1 g.2| > tau)).map
        (fun g => (⟨29, P g.1 g.2, [map (g.1 : Int), map (g.2 : Int)]⟩ : Record))) := by
    rw [List.filter_map, List.map_map]
    have hf : (propVisits wfn.nirrep wfn.frzcpi wfn.active).filter
        (fun q => |P (q.2.2.1 + irrepOffset wfn.nmopi q.1)
          (q.2.2.2 + irrepOffset wfn.nmopi q.2.1)| > tau) =
        (propVisits wfn.nirrep wfn.frzcpi wfn.active).filter
          ((fun g : Nat × Nat => decide (|P g.1 g.2| > tau)) ∘
            visitActive wfn.frzcpi wfn.active) := by
      apply List.filter_congr
      intro q hq
      simp only [Function.comp_apply, (hpt q hq).1]
      rfl
    rw [hf]
    apply List.map_congr_left
    intro q hq
    have hq' := (List.mem_filter.1 hq).1
    simp only [Function.comp_apply, (hpt q hq').1, (hpt q hq').2]
  show List.Perm (List.map (prop_record wfn.nmopi wfn.frzcpi P map) _) _
  rw [← hN]
  exact hout ▸ ((visits_perm_upperTriangle wfn.nirrep wfn.frzcpi wfn.active).filter _).map _

/-- Witness for C18: two irreps with `[2, 1]` orbitals, none frozen. -/
theorem write_oei_prop_to_disk_no_frozen_witness :
    ∃ out, (write_oei_prop_to_disk [] noFrozenWfn noFrozenWfn.nmopi propP 0 mo_index 0).1 =
        [] ++ out ∧
      out.Perm (((upperTriangle (irrepOffset noFrozenWfn.nmopi noFrozenWfn.nirrep)).filter
        (fun g => |propP g.1 g.2| > 0)).map
        (fun g => (⟨29, propP g.1 g.2, [mo_index (g.1 : Int), mo_index (g.2 : Int)]⟩ : Record))) :=
  write_oei_prop_to_disk_no_frozen [] noFrozenWfn propP 0 mo_index 0 (fun _ _ => rfl)
    (fun _ _ => rfl)

end Fcidump
